import Mathlib

/-!
Shallow embedding of the ikos LLVM-to-AR function importer
(`frontend/llvm/src/import/function.cpp`) and proofs about it.

Each definition mirrors one function of the source file, keeping its name
where Lean allows it.  Collaborator components that live outside this file
(`TypeImporter`, `ConstantImporter`, parts of the AR core) are modelled from
the specification and are marked as such in their doc comments.
-/

namespace IkosImport

/-! ## Basic data model: signedness and AR types -/

/-- AR signedness (`ar::Signedness`). -/
inductive Signedness
  | signed
  | unsigned
deriving DecidableEq, Repr

/-- AR types (`ar::Type`), restricted to the variants the importer
manipulates: integers carry a bit-width and a signedness, floats, pointers,
and void. -/
inductive ARType
  | integer (bits : Nat) (sign : Signedness)
  | float
  | pointer (pointee : ARType)
  | void
deriving DecidableEq, Repr

namespace ARType

/-- `ar::Type::is_pointer()`. -/
def is_pointer : ARType → Bool
  | .pointer _ => true
  | _ => false

/-- `ar::Type::is_integer()`. -/
def is_integer : ARType → Bool
  | .integer _ _ => true
  | _ => false

/-- `ar::IntegerType::bit_width()`, defaulting to 0 on non-integers
(the source only calls it after an `ar::cast< ar::IntegerType >`). -/
def bit_width : ARType → Nat
  | .integer bits _ => bits
  | _ => 0

/-- `ar::IntegerType::sign()`, defaulting to signed on non-integers
(the source only calls it after an `ar::cast< ar::IntegerType >`). -/
def sign : ARType → Signedness
  | .integer _ s => s
  | _ => .signed

/-- `ar::IntegerType::is_signed()`. -/
def is_signed (t : ARType) : Bool := t.sign == .signed

end ARType

/-! ## LLVM-side data used by the importer -/

/-- LLVM first-class types, as far as the importer inspects them
(`isPointerTy`, `isIntegerTy`, `isFloatingPointTy`). -/
inductive LLVMType
  | integer (bits : Nat)
  | float
  | pointer (pointee : LLVMType)
deriving DecidableEq, Repr

namespace LLVMType

/-- `llvm::Type::isPointerTy()`. -/
def isPointerTy : LLVMType → Bool
  | .pointer _ => true
  | _ => false

/-- `llvm::Type::isIntegerTy()`. -/
def isIntegerTy : LLVMType → Bool
  | .integer _ => true
  | _ => false

/-- `llvm::Type::isFloatingPointTy()`. -/
def isFloatingPointTy : LLVMType → Bool
  | .float => true
  | _ => false

end LLVMType

/-- Modelled from the spec: `TypeImporter::translate_type(LIR_type,
preferred_sign) -> AIR_type` (spec section 6, external interfaces; the
implementation lives in `type.cpp`, outside this file).  Per the spec data
model, integer AIR types carry the preferred signedness and floats and
pointers translate structurally. -/
def translate_type : LLVMType → Signedness → ARType
  | .integer bits, s => .integer bits s
  | .float, _ => .float
  | .pointer p, s => .pointer (translate_type p s)

/-! ## `sign_from_wraps` (claim C8) -/

/-- `sign_from_wraps` from `function.cpp`: signedness of an `add`/`sub`/`mul`
from the `nuw`/`nsw` flags. -/
def sign_from_wraps (nuw nsw : Bool) : Signedness :=
  if nuw && !nsw then .unsigned
  else if nsw && !nuw then .signed
  else if nsw && nuw then .signed
  else .unsigned

/-! ## `is_valid_bitcast` and the bitcast-emitting paths (claim C1) -/

/-- `is_valid_bitcast` from `function.cpp`: pointer to pointer, or integer to
integer of identical bit-width. -/
def is_valid_bitcast (a b : ARType) : Bool :=
  (a.is_pointer && b.is_pointer) ||
  (a.is_integer && b.is_integer && a.bit_width == b.bit_width)

/-- `FunctionImporter::add_bitcast(bb, result, operand)`: checks
`is_valid_bitcast` and then emits a `Bitcast` statement; we return the
(operand type, result type) pair of the emitted statement. -/
def add_bitcast (operandTy resultTy : ARType) : Except String (ARType × ARType) :=
  if is_valid_bitcast operandTy resultTy then .ok (operandTy, resultTy)
  else .error "unexpected ar::Type in add_bitcast()"

/-- `FunctionImporter::translate_bitcast`: guard on the LLVM source and
destination types (pointer/pointer, float/integer or integer/float), then
emit a `Bitcast` whose operand has the AIR type recorded for the LLVM
operand and whose result has the inferred AIR type.  Returns the
(operand type, result type) pair of the emitted `Bitcast`. -/
def translate_bitcast (srcTy destTy : LLVMType) (operandAirTy inferredTy : ARType) :
    Except String (ARType × ARType) :=
  if (srcTy.isPointerTy && destTy.isPointerTy) ||
     (srcTy.isFloatingPointTy && destTy.isIntegerTy) ||
     (srcTy.isIntegerTy && destTy.isFloatingPointTy) then
    .ok (operandAirTy, inferredTy)
  else
    .error "unexpected llvm::BitCastInst"

/-- One unary-operation emission of `add_integer_casts`: the operator kind
(extension, truncation or bitcast) with the operand and result types. -/
inductive IntCastEmission
  | sext (operandTy resultTy : ARType)
  | zext (operandTy resultTy : ARType)
  | strunc (operandTy resultTy : ARType)
  | utrunc (operandTy resultTy : ARType)
  | bitcast (operandTy resultTy : ARType)
deriving DecidableEq, Repr

/-- `FunctionImporter::add_integer_casts(bb, var, type)`: first a width
change keeping the current sign (`SExt`/`ZExt` when widening,
`STrunc`/`UTrunc` when narrowing), then a sign-changing `Bitcast` if the
signs still differ.  Returns the list of emitted unary operations. -/
def add_integer_casts (curBits : Nat) (curSign : Signedness)
    (tBits : Nat) (tSign : Signedness) : List IntCastEmission :=
  let widthStep : List IntCastEmission :=
    if curBits != tBits then
      if curBits < tBits then
        if curSign == .signed then
          [.sext (.integer curBits curSign) (.integer tBits curSign)]
        else
          [.zext (.integer curBits curSign) (.integer tBits curSign)]
      else
        if curSign == .signed then
          [.strunc (.integer curBits curSign) (.integer tBits curSign)]
        else
          [.utrunc (.integer curBits curSign) (.integer tBits curSign)]
    else []
  let signStep : List IntCastEmission :=
    if curSign != tSign then
      [.bitcast (.integer tBits curSign) (.integer tBits tSign)]
    else []
  widthStep ++ signStep

/-- The kind of statement `translate_phi_late` pushes in the input landing
block for one incoming value. -/
inductive PhiIncomingStmt
  | assignment
  | bitcast (operandTy resultTy : ARType)
deriving DecidableEq, Repr

/-- `FunctionImporter::translate_phi_late`, statement choice for one incoming
value: an `Assignment` when the types agree, a `Bitcast` when
`is_valid_bitcast` allows it, an `ImportError` otherwise. -/
def translate_phi_late_stmt (valueTy resultTy : ARType) :
    Except String PhiIncomingStmt :=
  if valueTy == resultTy then .ok .assignment
  else if is_valid_bitcast valueTy resultTy then .ok (.bitcast valueTy resultTy)
  else .error "unexpected ar::Type in translate_phi_late()"

/-! ## Type-hint accumulation and selection (claim C2)

`FunctionImporter::infer_type` accumulates hints in a
`boost::container::flat_map< ar::Type*, unsigned >`, i.e. a vector of
key-value pairs kept sorted by key (the `ar::Type*` pointer, compared with
`std::less`), and then picks the maximum with `std::max_element`, which
returns the *first* maximal element in iteration (key) order.  We model the
keys (`ar::Type*` addresses) as naturals. -/

/-- One `hints[hint.type] += hint.score` on a `flat_map` represented as a
key-sorted association list: `operator[]` inserts the key with value 0 at
its sorted position if absent, then `+=` adds the score. -/
def flatMapAdd : List (Nat × Nat) → Nat → Nat → List (Nat × Nat)
  | [], key, score => [(key, score)]
  | (k, v) :: rest, key, score =>
    if key < k then (key, score) :: (k, v) :: rest
    else if key == k then (k, v + score) :: rest
    else (k, v) :: flatMapAdd rest key score

/-- `std::max_element(begin, end, cmp)` with `cmp = (a.second < b.second)`:
the first element of the list such that no later element has a strictly
greater second component. -/
def maxElementFirst : List (Nat × Nat) → Option (Nat × Nat)
  | [] => none
  | x :: xs => some (xs.foldl (fun best y => if best.2 < y.2 then y else best) x)

/-- The hint-selection step of `FunctionImporter::infer_type`: fold the
per-use hints (in use order) into the `flat_map`, then take the key of the
first maximal element; `none` models the fall back to
`infer_default_type`.  Each hint is a (type key, score) pair. -/
def infer_type_select (hints : List (Nat × Nat)) : Option Nat :=
  let m := hints.foldl (fun m h => flatMapAdd m h.1 h.2) []
  if m.isEmpty then none
  else (maxElementFirst m).map Prod.fst

/-- One score accumulation on an *insertion-ordered* association list:
absent keys are appended at the end. -/
def insertionMapAdd : List (Nat × Nat) → Nat → Nat → List (Nat × Nat)
  | [], key, score => [(key, score)]
  | (k, v) :: rest, key, score =>
    if key == k then (k, v + score) :: rest
    else (k, v) :: insertionMapAdd rest key score

/-- Refinement target following the words of the spec for claim C2:
"the per-use type hints are accumulated by summing scores for identical
types in a map, the highest-scored type is selected, and when two distinct
types tie on the maximal summed score, the type whose hint was inserted
first (insertion order) is chosen". -/
def infer_type_select_spec (hints : List (Nat × Nat)) : Option Nat :=
  let m := hints.foldl (fun m h => insertionMapAdd m h.1 h.2) []
  if m.isEmpty then none
  else (maxElementFirst m).map Prod.fst

/-- Total score accumulated for a type key over a hint list: the sum of the
scores of the hints carrying that key. -/
def totalScore (hints : List (Nat × Nat)) (key : Nat) : Nat :=
  ((hints.filter (fun h => h.1 == key)).map Prod.snd).sum

/-! ## Integer binary operators: sign and operand-type selection (claim C3) -/

/-- The integer binary opcodes `translate_binary_operator` dispatches on. -/
inductive IntBinOpcode
  | add | sub | mul
  | udiv | urem
  | sdiv | srem
  | shl | lshr | ashr
  | bitAnd | bitOr | bitXor
deriving DecidableEq, Repr

/-- An LLVM operand of an integer binary operator, as the type-selection
logic of `translate_binary_operator` sees it: whether it is an
`llvm::Constant`, its LLVM type, and the AIR variable type recorded for it
when it is not a constant (for instructions and arguments the importer
looks up the already-translated `ar::Variable`). -/
structure BinOperand where
  isConst : Bool
  llvmType : LLVMType
  varAirType : ARType
deriving DecidableEq, Repr

/-- Modelled from the spec: `ConstantImporter::translate_constant` (spec
section 6; the implementation lives in `constant.cpp`, outside this file)
invoked with no target type translates the LIR type of the constant with
signed preference (spec section 4.E: "if both constant, translate the LIR
type with signed preference"). -/
def constant_untyped_air_type (llvmType : LLVMType) : ARType :=
  translate_type llvmType .signed

/-- Type of `translate_value(bb, operand, nullptr)` as used by the
type-selection logic: constants go to the constant importer with no target
type; instructions and arguments return their recorded AIR variable. -/
def operand_untyped_air_type (op : BinOperand) : ARType :=
  if op.isConst then constant_untyped_air_type op.llvmType else op.varAirType

/-- Outcome of the type-selection `switch` of
`translate_binary_operator` for an integer opcode: the chosen sign, the
operand/statement type, and which operand (if any) was translated eagerly
during selection. -/
structure BinOpSelection where
  sign : Signedness
  stmtType : ARType
  eager : Option (Fin 2)
deriving DecidableEq, Repr

/-- The `switch (inst->getOpcode())` of `translate_binary_operator`
restricted to integer opcodes, together with the
`if (stmt_type == nullptr) stmt_type = translate_type(llvm_type, sign)`
fall-through.  `llvmType` is the type of the instruction, `nuw`/`nsw` its
wrap flags. -/
def translate_binary_operator_selection (opc : IntBinOpcode)
    (llvmType : LLVMType) (nuw nsw : Bool) (op0 op1 : BinOperand) :
    BinOpSelection :=
  match opc with
  | .add | .sub | .mul =>
    let sign := sign_from_wraps nuw nsw
    { sign := sign, stmtType := translate_type llvmType sign, eager := none }
  | .udiv | .urem =>
    { sign := .unsigned, stmtType := translate_type llvmType .unsigned,
      eager := none }
  | .sdiv | .srem =>
    { sign := .signed, stmtType := translate_type llvmType .signed,
      eager := none }
  | .shl | .lshr | .ashr | .bitAnd | .bitOr | .bitXor =>
    if !op0.isConst then
      let left := operand_untyped_air_type op0
      { sign := left.sign, stmtType := left, eager := some 0 }
    else
      let right := operand_untyped_air_type op1
      { sign := right.sign, stmtType := right, eager := some 1 }

/-! ## `mark_special_blocks` (claim C7) -/

/-- LLVM terminators, as far as `mark_special_blocks` classifies them. -/
inductive TerminatorKind
  | ret
  | unreachable
  | resume
  | br
  | invoke
deriving DecidableEq, Repr

/-- The special blocks recorded by `mark_special_blocks` (LLVM blocks are
identified by their index in the function). -/
structure SpecialBlocks where
  returnBB : Option Nat
  unreachableBB : Option Nat
  ehresumeBB : Option Nat
deriving DecidableEq, Repr

/-- Error message for more than one block of the given kind, as built by
`mark_special_blocks`. -/
def special_blocks_error (funName kind : String) : String :=
  "function @" ++ funName ++ " has more than one " ++ kind ++
    " block (use the -mergereturn pass?)"

/-- Indices of the blocks whose terminator has the given kind. -/
def blocks_with_terminator (terms : List TerminatorKind) (k : TerminatorKind) :
    List Nat :=
  (terms.enum.filter (fun t => t.2 == k)).map Prod.fst

/-- `FunctionImporter::mark_special_blocks`: collect the return, unreachable
and resume blocks; at most one of each is allowed, otherwise an
`ImportError` recommending the merge-return pass is raised. -/
def mark_special_blocks (funName : String) (terms : List TerminatorKind) :
    Except String SpecialBlocks :=
  let rets := blocks_with_terminator terms .ret
  let unreachables := blocks_with_terminator terms .unreachable
  let resumes := blocks_with_terminator terms .resume
  match rets with
  | _ :: _ :: _ => .error (special_blocks_error funName "exit")
  | _ =>
    match unreachables with
    | _ :: _ :: _ => .error (special_blocks_error funName "unreachable")
    | _ =>
      match resumes with
      | _ :: _ :: _ => .error (special_blocks_error funName "ehresume")
      | _ => .ok ⟨rets.head?, unreachables.head?, resumes.head?⟩

/-! ## AR statements and the `BasicBlockTranslation` state machine
(claims C4, C5, C6, C9) -/

/-- AR comparison predicates (`ar::Comparison::Predicate`), restricted to
the integer and pointer families used here. -/
inductive Pred
  | SIEQ | SINE | SIGT | SIGE | SILT | SILE
  | UIEQ | UINE | UIGT | UIGE | UILT | UILE
  | PEQ | PNE | PGT | PGE | PLT | PLE
deriving DecidableEq, Repr

/-- Modelled from the spec: `ar::Comparison::inverse()` (AR core, outside
this file) returns the comparison with the logically negated predicate on
the same operands; the spec calls the two children of `add_comparison`
"mutually inverse predicates". -/
def Pred.inverse : Pred → Pred
  | .SIEQ => .SINE
  | .SINE => .SIEQ
  | .SIGT => .SILE
  | .SIGE => .SILT
  | .SILT => .SIGE
  | .SILE => .SIGT
  | .UIEQ => .UINE
  | .UINE => .UIEQ
  | .UIGT => .UILE
  | .UIGE => .UILT
  | .UILT => .UIGE
  | .UILE => .UIGT
  | .PEQ => .PNE
  | .PNE => .PEQ
  | .PGT => .PLE
  | .PGE => .PLT
  | .PLT => .PGE
  | .PLE => .PGT

/-- An `ar::InternalVariable`: an identifier plus its AR type. -/
structure IVar where
  id : Nat
  ty : ARType
deriving DecidableEq, Repr

/-- An AR operand (`ar::Value`): a variable or an integer constant. -/
inductive AValue
  | var (v : IVar)
  | intConst (ty : ARType) (value : Int)
deriving DecidableEq, Repr

/-- AR statements, as far as the block-translation machinery inspects them:
assignments (`ar::Assignment`), comparisons (`ar::Comparison`) and a
generic constructor for every other statement kind.  `clone()` is the
identity in this value-semantic model. -/
inductive Stmt
  | assign (result : IVar) (operand : AValue)
  | comparison (pred : Pred) (left right : AValue)
  | generic (tag : Nat)
deriving DecidableEq, Repr

/-- An `ar::Comparison` statement held as a `unique_ptr` before append. -/
structure CmpStmt where
  pred : Pred
  left : AValue
  right : AValue
deriving DecidableEq, Repr

/-- `cmp->inverse()`. -/
def CmpStmt.inverse (c : CmpStmt) : CmpStmt := { c with pred := c.pred.inverse }

/-- View a pending comparison as a statement. -/
def CmpStmt.toStmt (c : CmpStmt) : Stmt := .comparison c.pred c.left c.right

/-- An `ar::BasicBlock`: its statements and its successor edges (edges are
block identifiers in the same `ar::Code`). -/
structure ARBlock where
  stmts : List Stmt
  succs : List Nat
deriving DecidableEq, Repr

/-- A freshly created `ar::BasicBlock`. -/
def ARBlock.empty : ARBlock := ⟨[], []⟩

/-- `ar::BasicBlock::pop_back()`. -/
def ARBlock.popBack (b : ARBlock) : ARBlock := { b with stmts := b.stmts.dropLast }

/-- An entry of `BasicBlockTranslation::outputs`: an AR block open for
appending, with its LLVM successor (`nullptr` for terminating outputs). -/
structure BasicBlockOutput where
  block : Nat
  succ : Option Nat
deriving DecidableEq, Repr

/-- The state of a `BasicBlockTranslation` together with the `ar::Code` it
writes into: `blocks` maps block identifiers to their contents, and
`nextId` is the next fresh identifier `ar::BasicBlock::create` hands out. -/
structure BBState where
  main : Nat
  outputs : List BasicBlockOutput
  internals : List Nat
  blocks : Nat → ARBlock
  nextId : Nat

namespace BBState

/-- Replace the contents of block `i`. -/
def setBlock (s : BBState) (i : Nat) (b : ARBlock) : BBState :=
  { s with blocks := fun j => if j = i then b else s.blocks j }

/-- `bb->push_back(stmt)` on block `i`. -/
def pushStmt (s : BBState) (i : Nat) (st : Stmt) : BBState :=
  s.setBlock i { s.blocks i with stmts := (s.blocks i).stmts ++ [st] }

/-- `bb->add_successor(dest)` on block `i`. -/
def addSucc (s : BBState) (i dest : Nat) : BBState :=
  s.setBlock i { s.blocks i with succs := (s.blocks i).succs ++ [dest] }

/-- `ar::BasicBlock::create(code)`: a fresh empty block. -/
def createBlock (s : BBState) : Nat × BBState :=
  (s.nextId, { s.setBlock s.nextId ARBlock.empty with nextId := s.nextId + 1 })

/-- `BasicBlockTranslation::merge_outputs()`: if there are at least two
outputs, create a fresh block, make every output a predecessor of it and
move the outputs to `internals`, leaving the fresh block as sole output
with no LLVM successor. -/
def merge_outputs (s : BBState) : BBState :=
  if s.outputs.length < 2 then s
  else
    let (dest, s1) := s.createBlock
    let s2 := s.outputs.foldl
      (fun acc o =>
        { acc.addSucc o.block dest with internals := acc.internals ++ [o.block] })
      s1
    { s2 with outputs := [⟨dest, none⟩] }

/-- `BasicBlockTranslation::add_statement(stmt)`: move the statement into
the only output, or clone it into every output. -/
def add_statement (s : BBState) (stmt : Stmt) : BBState :=
  match s.outputs with
  | [o] => s.pushStmt o.block stmt
  | _ => s.outputs.foldl (fun acc o => acc.pushStmt o.block stmt) s

end BBState

/-- `create_bool_assignment(ctx, var, value)`: the assignment
`var := value` with the constant built at the type of `var`. -/
def create_bool_assignment (var : IVar) (value : Bool) : Stmt :=
  .assign var (.intConst var.ty (if value then 1 else 0))

/-- `create_bool_cmp(ctx, var, value)`: the comparison `var == value`, with
the signed or unsigned equality predicate according to the sign of the type
of `var`. -/
def create_bool_cmp (var : IVar) (value : Bool) : CmpStmt :=
  ⟨if var.ty.is_signed then .SIEQ else .UIEQ,
   .var var,
   .intConst var.ty (if value then 1 else 0)⟩

namespace BBState

/-- `BasicBlockTranslation::add_comparison_output_bb(src, cmp, var, value)`:
create a child block containing the comparison then the boolean assignment,
add an edge from `src`, and append the child to the outputs. -/
def add_comparison_output_bb (s : BBState) (src : Nat) (cmp : Stmt)
    (var : IVar) (value : Bool) : BBState :=
  let (dest, s1) := s.createBlock
  let s2 := s1.pushStmt dest cmp
  let s3 := s2.pushStmt dest (create_bool_assignment var value)
  let s4 := s3.addSucc src dest
  { s4 with outputs := s4.outputs ++ [⟨dest, none⟩] }

/-- `BasicBlockTranslation::add_comparison(var, cmp)`: close every open
output, spawning per output one child with the comparison and `var := true`
and one child with the inverse comparison and `var := false`. -/
def add_comparison (s : BBState) (var : IVar) (cmp : CmpStmt) : BBState :=
  match s.outputs with
  | [o] =>
    let s1 := { s with internals := s.internals ++ [o.block], outputs := [] }
    let s2 := s1.add_comparison_output_bb o.block cmp.toStmt var true
    s2.add_comparison_output_bb o.block cmp.inverse.toStmt var false
  | outs =>
    let s1 := { s with outputs := [] }
    outs.foldl
      (fun acc o =>
        let acc1 := { acc with internals := acc.internals ++ [o.block] }
        let acc2 := acc1.add_comparison_output_bb o.block cmp.toStmt var true
        acc2.add_comparison_output_bb o.block cmp.inverse.toStmt var false)
      s1

/-- `BasicBlockTranslation::add_unconditional_branching(br, succ)`: set the
LLVM successor of every output. -/
def add_unconditional_branching (s : BBState) (succ : Nat) : BBState :=
  { s with outputs := s.outputs.map (fun o => { o with succ := some succ }) }

end BBState

/-- The data of a conditional `llvm::BranchInst` used by
`add_conditional_branching`: its two successors, and whether the condition
value has a single use which is this branch (`hasOneUse()` and
`*user_begin() == br`). -/
structure BranchInfo where
  trueSucc : Nat
  falseSucc : Nat
  condSingleUse : Bool
deriving DecidableEq, Repr

/-- The per-output test of `has_assign_preds` in
`add_conditional_branching`: the block is non-empty and its last statement
is an assignment of an integer constant to the condition variable. -/
def isCondConstAssign (cond : IVar) (b : ARBlock) : Bool :=
  match b.stmts.getLast? with
  | some (.assign r (.intConst _ _)) => r == cond
  | _ => false

/-- The constant of the trailing assignment of an output block in the fused
case (`ar::cast` on the last statement; the value is only read when
`isCondConstAssign` holds). -/
def lastAssignConstValue (b : ARBlock) : Int :=
  match b.stmts.getLast? with
  | some (.assign _ (.intConst _ v)) => v
  | _ => 0

namespace BBState

/-- `BasicBlockTranslation::add_conditional_output_bb(br, src, llvm_dest,
cond, value)`: create a child block, push the comparison `cond == value`
unless the condition is single-use, add an edge from `src`, and append the
child with its LLVM destination to the outputs. -/
def add_conditional_output_bb (s : BBState) (removeAssign : Bool) (src : Nat)
    (llvmDest : Nat) (cond : IVar) (value : Bool) : BBState :=
  let (dest, s1) := s.createBlock
  let s2 :=
    if removeAssign then s1
    else s1.pushStmt dest (create_bool_cmp cond value).toStmt
  let s3 := s2.addSucc src dest
  { s3 with outputs := s3.outputs ++ [⟨dest, some llvmDest⟩] }

/-- `BasicBlockTranslation::add_conditional_branching(br, cond)`: in the
fused case (every output ends with `cond := integer constant`) set each
LLVM successor from the constant and drop the assignment when the condition
is single-use; otherwise split every output into a true child and a false
child via `add_conditional_output_bb`. -/
def add_conditional_branching (s : BBState) (br : BranchInfo) (cond : IVar) :
    BBState :=
  let hasAssignPreds :=
    s.outputs.all (fun o => isCondConstAssign cond (s.blocks o.block))
  if hasAssignPreds then
    let removeAssign := br.condSingleUse
    let folded := s.outputs.foldl
      (fun (acc : (Nat → ARBlock) × List BasicBlockOutput) o =>
        let bb := acc.1 o.block
        let cst := lastAssignConstValue bb
        let succ := if cst == 0 then br.falseSucc else br.trueSucc
        let blocks :=
          if removeAssign then fun j => if j = o.block then bb.popBack else acc.1 j
          else acc.1
        (blocks, acc.2 ++ [⟨o.block, some succ⟩]))
      (s.blocks, [])
    { s with blocks := folded.1, outputs := folded.2 }
  else
    let outs := s.outputs
    let s1 := { s with outputs := [] }
    outs.foldl
      (fun acc o =>
        let acc1 := { acc with internals := acc.internals ++ [o.block] }
        let acc2 :=
          acc1.add_conditional_output_bb br.condSingleUse o.block br.trueSucc
            cond true
        acc2.add_conditional_output_bb br.condSingleUse o.block br.falseSucc
          cond false)
      s1

end BBState

/-- The condition operand of a conditional `llvm::BranchInst`, as
`translate_branch` dispatches on it: an instruction or argument (with its
recorded AR variable and the single-use flag), an integer constant, or
anything else (an error). -/
inductive BranchCondition
  | instOrArg (v : IVar) (singleUse : Bool)
  | constInt (value : Int)
  | unexpected
deriving DecidableEq, Repr

/-- An `llvm::BranchInst` as `translate_branch` sees it. -/
structure LLVMBranch where
  conditional : Bool
  succ0 : Nat
  succ1 : Nat
  cond : BranchCondition
deriving DecidableEq, Repr

/-- `FunctionImporter::translate_branch`: unconditional branches set every
output successor to the single target; conditional branches on a translated
variable go through `add_conditional_branching`; conditional branches on an
integer constant become unconditional to successor 1 when the constant is
zero and successor 0 otherwise; other condition shapes are errors. -/
def translate_branch (s : BBState) (br : LLVMBranch) : Except String BBState :=
  if !br.conditional then
    .ok (s.add_unconditional_branching br.succ0)
  else
    match br.cond with
    | .instOrArg v singleUse =>
      .ok (s.add_conditional_branching ⟨br.succ0, br.succ1, singleUse⟩ v)
    | .constInt value =>
      .ok (s.add_unconditional_branching (if value == 0 then br.succ1 else br.succ0))
    | .unexpected => .error "unexpected condition for llvm::BranchInst"

/-- The LLVM instruction classes `translate_instruction` tests in its
merge pre-rule (`llvm::CmpInst`, `llvm::BinaryOperator`,
`llvm::BranchInst`) and every other instruction kind it dispatches on. -/
inductive InstKind
  | cmpInst
  | binaryOperator
  | branchInst
  | allocaInst
  | storeInst
  | loadInst
  | callInst
  | invokeInst
  | castInst
  | getElementPtrInst
  | returnInst
  | phiNode
  | extractValueInst
  | insertValueInst
  | unreachableInst
  | landingPadInst
  | resumeInst
deriving DecidableEq, Repr

/-- The pre-rule at the top of `FunctionImporter::translate_instruction`:
with more than one output block, merge them first, unless the instruction
is a comparison, a binary operator or a branch. -/
def translate_instruction_pre (s : BBState) (inst : InstKind) : BBState :=
  if s.outputs.length > 1 && !(inst == .cmpInst) &&
     !(inst == .binaryOperator) && !(inst == .branchInst) then
    s.merge_outputs
  else s

/-- A small concrete `BasicBlockTranslation` state (a freshly created
translation whose main block is block 0), used to evaluate the operations
on concrete inputs. -/
def sampleState : BBState :=
  { main := 0
    outputs := [⟨0, none⟩]
    internals := []
    blocks := fun _ => ARBlock.empty
    nextId := 1 }

/-- A concrete two-output state, as produced by a comparison fan-out:
block 1 ends with `cond := 1`, block 2 ends with `cond := 0`. -/
def sampleFanoutState (cond : IVar) : BBState :=
  { main := 0
    outputs := [⟨1, none⟩, ⟨2, none⟩]
    internals := [0]
    blocks := fun j =>
      if j = 1 then ⟨[.comparison .SIGT (.var ⟨10, .integer 32 .signed⟩) (.intConst (.integer 32 .signed) 0),
                      .assign cond (.intConst cond.ty 1)], []⟩
      else if j = 2 then ⟨[.comparison .SILE (.var ⟨10, .integer 32 .signed⟩) (.intConst (.integer 32 .signed) 0),
                      .assign cond (.intConst cond.ty 0)], []⟩
      else ARBlock.empty
    nextId := 3 }

/-! ## BFS block translation and the deferred passes (claim C10) -/

/-- The control-flow graph of an LIR function with `n` basic blocks:
successor edges and the entry block. -/
structure LIRCfg (n : Nat) where
  succs : Fin n → List (Fin n)
  entry : Fin n

/-- The worklist loop of `FunctionImporter::translate_basic_blocks`:
pop the front block, skip it when already translated, otherwise translate
it and push its successors.  The result is the set of keys of the
`_blocks` map. -/
def bfs {n : Nat} (succs : Fin n → List (Fin n)) (visited : Finset (Fin n))
    (wl : List (Fin n)) : Finset (Fin n) :=
  match wl with
  | [] => visited
  | b :: rest =>
    if b ∈ visited then bfs succs visited rest
    else bfs succs (insert b visited) (rest ++ succs b)
termination_by (n - visited.card, wl.length)
decreasing_by
  · apply Prod.Lex.right
    simp
  · apply Prod.Lex.left
    rename_i hb
    have hne : visited ≠ Finset.univ := by
      intro h
      exact hb (h ▸ Finset.mem_univ b)
    have hlt : visited.card < n := by
      have := (Finset.card_lt_iff_ne_univ visited).mpr hne
      simpa using this
    have hins : (insert b visited).card = visited.card + 1 :=
      Finset.card_insert_of_not_mem hb
    omega

/-- `FunctionImporter::translate_basic_blocks()`: BFS from the entry
block. -/
def translate_basic_blocks {n : Nat} (g : LIRCfg n) : Finset (Fin n) :=
  bfs g.succs ∅ [g.entry]

/-- The LIR blocks whose PHI nodes `FunctionImporter::translate_phi_nodes()`
wires: the pass iterates the LLVM blocks in definition order and skips
every block absent from the `_blocks` map. -/
def translate_phi_nodes_processed {n : Nat} (g : LIRCfg n) : List (Fin n) :=
  (List.finRange n).filter (fun b => b ∈ translate_basic_blocks g)

/-- The LIR blocks whose outputs `FunctionImporter::link_basic_blocks()`
links: the pass iterates the LLVM blocks in definition order and skips
every block absent from the `_blocks` map. -/
def link_basic_blocks_processed {n : Nat} (g : LIRCfg n) : List (Fin n) :=
  (List.finRange n).filter (fun b => b ∈ translate_basic_blocks g)

/-- Reachability from the entry block by following successor edges. -/
def ReachableCfg {n : Nat} (g : LIRCfg n) (b : Fin n) : Prop :=
  Relation.ReflTransGen (fun a c => c ∈ g.succs a) g.entry b

/-! # Theorems -/

/-! ## Claim C8 -/

/-- Claim C8: for an integer `Add`, `Sub` or `Mul`, the signedness chosen
from the wrap flags is unsigned when only `nuw` is set, signed when only
`nsw` is set, signed when both are set, and unsigned when neither is
set. -/
theorem sign_from_wraps_cases :
    sign_from_wraps true false = Signedness.unsigned ∧
    sign_from_wraps false true = Signedness.signed ∧
    sign_from_wraps true true = Signedness.signed ∧
    sign_from_wraps false false = Signedness.unsigned := by
  decide

/-! ## Claim C1 -/

/-- Claim C1 counterexample: translating the LIR instruction
`bitcast float to i32` on an operand whose recorded AIR type is float and
whose inferred result type is `si32` succeeds and emits an AIR Bitcast whose
operand type is a float and whose result type is an integer — a pair that is
neither pointer/pointer nor integer/integer of identical bit-width. -/
theorem translate_bitcast_float_counterexample :
    translate_bitcast LLVMType.float (LLVMType.integer 32) ARType.float
        (ARType.integer 32 .signed) =
      Except.ok (ARType.float, ARType.integer 32 .signed) ∧
    is_valid_bitcast ARType.float (ARType.integer 32 .signed) = false :=
  ⟨rfl, rfl⟩

/-- Claim C1 (amended): every AIR Bitcast emitted by `add_bitcast` (operand
coercions and result fix-ups), by `add_integer_casts`, or for a PHI
incoming value satisfies `is_valid_bitcast` (pointer/pointer or
integer/integer of identical bit-width); the Bitcasts emitted when
translating an LIR bitcast instruction pair the recorded operand type with
the inferred result type and are emitted exactly when the LLVM
source/destination types are pointer/pointer, float/integer or
integer/float. -/
theorem bitcast_emissions_classified :
    (∀ a b p, add_bitcast a b = Except.ok p →
        p = (a, b) ∧ is_valid_bitcast a b = true) ∧
    (∀ cb cs tb ts x y,
        IntCastEmission.bitcast x y ∈ add_integer_casts cb cs tb ts →
        is_valid_bitcast x y = true) ∧
    (∀ vt rt x y,
        translate_phi_late_stmt vt rt = Except.ok (PhiIncomingStmt.bitcast x y) →
        is_valid_bitcast x y = true) ∧
    (∀ st dt ot it p, translate_bitcast st dt ot it = Except.ok p →
        p = (ot, it) ∧
        ((st.isPointerTy && dt.isPointerTy) ||
         (st.isFloatingPointTy && dt.isIntegerTy) ||
         (st.isIntegerTy && dt.isFloatingPointTy)) = true) := by
  refine ⟨?_, ?_, ?_, ?_⟩
  · intro a b p h
    by_cases hv : is_valid_bitcast a b = true
    · rw [add_bitcast, if_pos hv] at h
      cases h
      exact ⟨rfl, hv⟩
    · rw [add_bitcast, if_neg hv] at h
      cases h
  · intro cb cs tb ts x y h
    unfold add_integer_casts at h
    simp only [List.mem_append] at h
    rcases h with h | h
    · repeat' split at h
      all_goals simp_all
    · split at h
      · simp only [List.mem_singleton, IntCastEmission.bitcast.injEq] at h
        rcases h with ⟨hx, hy⟩
        subst hx; subst hy
        simp [is_valid_bitcast, ARType.is_integer, ARType.bit_width]
      · simp at h
  · intro vt rt x y h
    unfold translate_phi_late_stmt at h
    split at h
    · cases h
    · split at h
      · rename_i hv
        cases h
        exact hv
      · cases h
  · intro st dt ot it p h
    unfold translate_bitcast at h
    split at h
    · cases h
      rename_i hg
      exact ⟨rfl, hg⟩
    · cases h

/-- Witness applying `bitcast_emissions_classified` at concrete inputs. -/
theorem bitcast_emissions_classified_witness :
    ((ARType.pointer .void, ARType.pointer .float) =
        (ARType.pointer .void, ARType.pointer .float) ∧
      is_valid_bitcast (ARType.pointer .void) (ARType.pointer .float) = true) ∧
    is_valid_bitcast (ARType.integer 8 .unsigned) (ARType.integer 8 .signed) = true ∧
    is_valid_bitcast (ARType.integer 16 .signed) (ARType.integer 16 .unsigned) = true ∧
    ((ARType.float, ARType.integer 32 .signed) =
        (ARType.float, ARType.integer 32 .signed) ∧
      ((LLVMType.float.isPointerTy && (LLVMType.integer 32).isPointerTy) ||
       (LLVMType.float.isFloatingPointTy && (LLVMType.integer 32).isIntegerTy) ||
       (LLVMType.float.isIntegerTy && (LLVMType.integer 32).isFloatingPointTy)) = true) :=
  ⟨bitcast_emissions_classified.1 (ARType.pointer .void) (ARType.pointer .float)
      (ARType.pointer .void, ARType.pointer .float) rfl,
   bitcast_emissions_classified.2.1 8 .unsigned 8 .signed
      (ARType.integer 8 .unsigned) (ARType.integer 8 .signed) (by decide),
   bitcast_emissions_classified.2.2.1 (ARType.integer 16 .signed)
      (ARType.integer 16 .unsigned) (ARType.integer 16 .signed)
      (ARType.integer 16 .unsigned) rfl,
   bitcast_emissions_classified.2.2.2 LLVMType.float (LLVMType.integer 32)
      ARType.float (ARType.integer 32 .signed)
      (ARType.float, ARType.integer 32 .signed) rfl⟩

/-! ## Claim C9 -/

/-- Claim C9: a conditional branch on an integer-constant condition emits no
comparison and no assignment (the blocks, internals and fresh-identifier
counter are untouched) and branches unconditionally: every output gets the
second successor exactly when the constant is zero, and the first successor
for every nonzero constant. -/
theorem translate_branch_const_cond (s : BBState) (br : LLVMBranch) (c : Int)
    (hbr : br.conditional = true) (hc : br.cond = .constInt c) :
    translate_branch s br = Except.ok
      { main := s.main
        outputs := s.outputs.map
          (fun o => { o with succ := some (if c = 0 then br.succ1 else br.succ0) })
        internals := s.internals
        blocks := s.blocks
        nextId := s.nextId } := by
  unfold translate_branch
  rw [hbr, hc]
  by_cases h0 : c = 0
  · simp [h0, BBState.add_unconditional_branching]
  · simp [h0, BBState.add_unconditional_branching]

/-- Witness applying `translate_branch_const_cond` to a concrete state and
branch. -/
theorem translate_branch_const_cond_witness :
    translate_branch sampleState ⟨true, 7, 9, .constInt 0⟩ = Except.ok
      { main := sampleState.main
        outputs := sampleState.outputs.map
          (fun o => { o with succ := some (if (0 : Int) = 0 then 9 else 7) })
        internals := sampleState.internals
        blocks := sampleState.blocks
        nextId := sampleState.nextId } :=
  translate_branch_const_cond sampleState ⟨true, 7, 9, .constInt 0⟩ 0 rfl rfl

/-! ## Claim C3 -/

/-- Claim C3: for an integer bitwise or shift binary operator (`Shl`,
`LShr`, `AShr`, `And`, `Or`, `Xor`), the operand signedness is taken from
the first non-constant operand, which is translated eagerly during type
selection; when both operands are constants, the operand type is the LIR
type translated with signed preference (via the constant importer, on
operand 1). -/
theorem translate_binary_operator_bitwise_sign (opc : IntBinOpcode)
    (hopc : opc = .shl ∨ opc = .lshr ∨ opc = .ashr ∨
            opc = .bitAnd ∨ opc = .bitOr ∨ opc = .bitXor)
    (ty : LLVMType) (nuw nsw : Bool) (op0 op1 : BinOperand)
    (h0 : op0.llvmType = ty) (h1 : op1.llvmType = ty) :
    (op0.isConst = false →
      translate_binary_operator_selection opc ty nuw nsw op0 op1 =
        ⟨op0.varAirType.sign, op0.varAirType, some 0⟩) ∧
    (op0.isConst = true → op1.isConst = false →
      translate_binary_operator_selection opc ty nuw nsw op0 op1 =
        ⟨op1.varAirType.sign, op1.varAirType, some 1⟩) ∧
    (op0.isConst = true → op1.isConst = true →
      translate_binary_operator_selection opc ty nuw nsw op0 op1 =
        ⟨(translate_type ty .signed).sign, translate_type ty .signed, some 1⟩) := by
  refine ⟨?_, ?_, ?_⟩
  · intro hc0
    rcases hopc with h | h | h | h | h | h <;> subst h <;>
      simp [translate_binary_operator_selection, operand_untyped_air_type, hc0]
  · intro hc0 hc1
    rcases hopc with h | h | h | h | h | h <;> subst h <;>
      simp [translate_binary_operator_selection, operand_untyped_air_type, hc0, hc1]
  · intro hc0 hc1
    rcases hopc with h | h | h | h | h | h <;> subst h <;>
      simp [translate_binary_operator_selection, operand_untyped_air_type,
        constant_untyped_air_type, hc0, hc1, h1]

/-- Witness applying `translate_binary_operator_bitwise_sign` to concrete
operands. -/
theorem translate_binary_operator_bitwise_sign_witness :
    translate_binary_operator_selection .bitAnd (.integer 8) false false
        ⟨false, .integer 8, .integer 8 .unsigned⟩
        ⟨true, .integer 8, .integer 8 .signed⟩ =
      ⟨(ARType.integer 8 .unsigned).sign, ARType.integer 8 .unsigned, some 0⟩ :=
  (translate_binary_operator_bitwise_sign .bitAnd (by decide) (.integer 8)
      false false ⟨false, .integer 8, .integer 8 .unsigned⟩
      ⟨true, .integer 8, .integer 8 .signed⟩ rfl rfl).1 rfl

/-! ## Claim C7 -/

/-- Claim C7: more than one return block (respectively unreachable block,
resume block) raises an `ImportError` whose message mentions "more than one
exit block" (respectively unreachable/ehresume) and recommends the
merge-return pass; with at most one of each, the marking succeeds. -/
theorem mark_special_blocks_spec (funName : String) (terms : List TerminatorKind) :
    (1 < (blocks_with_terminator terms .ret).length →
      mark_special_blocks funName terms =
        Except.error (special_blocks_error funName "exit")) ∧
    ((blocks_with_terminator terms .ret).length ≤ 1 →
      1 < (blocks_with_terminator terms .unreachable).length →
      mark_special_blocks funName terms =
        Except.error (special_blocks_error funName "unreachable")) ∧
    ((blocks_with_terminator terms .ret).length ≤ 1 →
      (blocks_with_terminator terms .unreachable).length ≤ 1 →
      1 < (blocks_with_terminator terms .resume).length →
      mark_special_blocks funName terms =
        Except.error (special_blocks_error funName "ehresume")) ∧
    ((blocks_with_terminator terms .ret).length ≤ 1 →
      (blocks_with_terminator terms .unreachable).length ≤ 1 →
      (blocks_with_terminator terms .resume).length ≤ 1 →
      mark_special_blocks funName terms = Except.ok
        ⟨(blocks_with_terminator terms .ret).head?,
         (blocks_with_terminator terms .unreachable).head?,
         (blocks_with_terminator terms .resume).head?⟩) ∧
    (∀ kind, ∃ pre post,
      special_blocks_error funName kind =
        pre ++ ("more than one " ++ kind ++ " block") ++ post) ∧
    (∀ kind, ∃ pre post,
      special_blocks_error funName kind = pre ++ "-mergereturn" ++ post) := by
  refine ⟨?_, ?_, ?_, ?_, ?_, ?_⟩
  · intro h
    rcases hr : blocks_with_terminator terms .ret with _ | ⟨a, _ | ⟨b, t⟩⟩ <;>
      rw [hr] at h
    · simp at h
    · simp at h
    · simp [mark_special_blocks, hr]
  · intro h1 h
    rcases hu : blocks_with_terminator terms .unreachable with _ | ⟨a, _ | ⟨b, t⟩⟩ <;>
      rw [hu] at h
    · simp at h
    · simp at h
    · rcases hr : blocks_with_terminator terms .ret with _ | ⟨c, _ | ⟨d, t2⟩⟩
      · simp [mark_special_blocks, hr, hu]
      · simp [mark_special_blocks, hr, hu]
      · rw [hr] at h1; simp at h1
  · intro h1 h2 h
    rcases he : blocks_with_terminator terms .resume with _ | ⟨a, _ | ⟨b, t⟩⟩ <;>
      rw [he] at h
    · simp at h
    · simp at h
    · rcases hr : blocks_with_terminator terms .ret with _ | ⟨c, _ | ⟨d, t2⟩⟩
      · rcases hu : blocks_with_terminator terms .unreachable with _ | ⟨e, _ | ⟨f, t3⟩⟩
        · simp [mark_special_blocks, hr, hu, he]
        · simp [mark_special_blocks, hr, hu, he]
        · rw [hu] at h2; simp at h2
      · rcases hu : blocks_with_terminator terms .unreachable with _ | ⟨e, _ | ⟨f, t3⟩⟩
        · simp [mark_special_blocks, hr, hu, he]
        · simp [mark_special_blocks, hr, hu, he]
        · rw [hu] at h2; simp at h2
      · rw [hr] at h1; simp at h1
  · intro h1 h2 h3
    have hsmall : ∀ l : List Nat, l.length ≤ 1 → l = [] ∨ ∃ a, l = [a] := by
      intro l hl
      match l with
      | [] => exact Or.inl rfl
      | [a] => exact Or.inr ⟨a, rfl⟩
      | a :: b :: t => simp at hl
    rcases hsmall _ h1 with hr | ⟨c, hr⟩ <;>
      rcases hsmall _ h2 with hu | ⟨e, hu⟩ <;>
        rcases hsmall _ h3 with he | ⟨g, he⟩ <;>
          simp [mark_special_blocks, hr, hu, he]
  · intro kind
    refine ⟨"function @" ++ funName ++ " has ", " (use the -mergereturn pass?)", ?_⟩
    show "function @" ++ funName ++ " has more than one " ++ kind ++
        " block (use the -mergereturn pass?)" = _
    have e1 : (" has more than one " : String) = " has " ++ "more than one " := rfl
    have e2 : (" block (use the -mergereturn pass?)" : String) =
        " block" ++ " (use the -mergereturn pass?)" := rfl
    rw [e1, e2]
    simp only [String.append_assoc]
  · intro kind
    refine ⟨"function @" ++ funName ++ " has more than one " ++ kind ++
      " block (use the ", " pass?)", ?_⟩
    show "function @" ++ funName ++ " has more than one " ++ kind ++
        " block (use the -mergereturn pass?)" = _
    have e1 : (" block (use the -mergereturn pass?)" : String) =
        " block (use the " ++ "-mergereturn" ++ " pass?)" := rfl
    rw [e1]
    simp only [String.append_assoc]

/-- Witness applying `mark_special_blocks_spec` to concrete functions. -/
theorem mark_special_blocks_spec_witness :
    mark_special_blocks "f" [.ret, .ret] =
      Except.error (special_blocks_error "f" "exit") ∧
    mark_special_blocks "g" [.br, .unreachable, .unreachable] =
      Except.error (special_blocks_error "g" "unreachable") ∧
    mark_special_blocks "h" [.resume, .resume] =
      Except.error (special_blocks_error "h" "ehresume") ∧
    mark_special_blocks "k" [.ret, .unreachable, .resume, .br] =
      Except.ok ⟨some 0, some 1, some 2⟩ :=
  ⟨(mark_special_blocks_spec "f" [.ret, .ret]).1 (by decide),
   (mark_special_blocks_spec "g" [.br, .unreachable, .unreachable]).2.1
     (by decide) (by decide),
   (mark_special_blocks_spec "h" [.resume, .resume]).2.2.1
     (by decide) (by decide) (by decide),
   (mark_special_blocks_spec "k" [.ret, .unreachable, .resume, .br]).2.2.2.1
     (by decide) (by decide) (by decide)⟩

/-! ## Claim C2 -/

theorem totalScore_cons (a : Nat × Nat) (l : List (Nat × Nat)) (k : Nat) :
    totalScore (a :: l) k = (if a.1 = k then a.2 else 0) + totalScore l k := by
  by_cases h : a.1 = k
  · simp [totalScore, List.filter_cons, h]
  · simp [totalScore, List.filter_cons, h]

theorem totalScore_eq_zero (m : List (Nat × Nat)) (k : Nat)
    (hall : ∀ x ∈ m, x.1 ≠ k) : totalScore m k = 0 := by
  induction m with
  | nil => simp [totalScore]
  | cons a rest ih =>
    rw [totalScore_cons]
    have ha : a.1 ≠ k := hall a (List.mem_cons_self a rest)
    have hr := ih (fun x hx => hall x (List.mem_cons_of_mem a hx))
    simp [ha, hr]

theorem flatMapAdd_lt_eq (a : Nat × Nat) (rest : List (Nat × Nat)) (k s : Nat)
    (h1 : k < a.1) : flatMapAdd (a :: rest) k s = (k, s) :: a :: rest := by
  obtain ⟨a1, a2⟩ := a
  simp only at h1
  simp [flatMapAdd, h1]

theorem flatMapAdd_eq_eq (a : Nat × Nat) (rest : List (Nat × Nat)) (k s : Nat)
    (h1 : ¬k < a.1) (h2 : k = a.1) :
    flatMapAdd (a :: rest) k s = (a.1, a.2 + s) :: rest := by
  obtain ⟨a1, a2⟩ := a
  simp only at h1 h2
  simp [flatMapAdd, h1, h2]

theorem flatMapAdd_gt_eq (a : Nat × Nat) (rest : List (Nat × Nat)) (k s : Nat)
    (h1 : ¬k < a.1) (h2 : ¬k = a.1) :
    flatMapAdd (a :: rest) k s = a :: flatMapAdd rest k s := by
  obtain ⟨a1, a2⟩ := a
  simp only at h1 h2
  simp [flatMapAdd, h1, h2]

theorem flatMapAdd_totalScore (m : List (Nat × Nat)) (k s k' : Nat) :
    totalScore (flatMapAdd m k s) k' =
      totalScore m k' + (if k = k' then s else 0) := by
  induction m with
  | nil =>
    simp only [flatMapAdd, totalScore_cons]
    by_cases h : k = k' <;> simp [totalScore, h]
  | cons a rest ih =>
    by_cases h1 : k < a.1
    · rw [flatMapAdd_lt_eq a rest k s h1]
      simp only [totalScore_cons]
      split_ifs <;> omega
    · by_cases h2 : k = a.1
      · rw [flatMapAdd_eq_eq a rest k s h1 h2]
        simp only [totalScore_cons]
        split_ifs <;> omega
      · rw [flatMapAdd_gt_eq a rest k s h1 h2]
        simp only [totalScore_cons, ih]
        split_ifs <;> omega

theorem foldl_flatMapAdd_totalScore (hints : List (Nat × Nat))
    (m : List (Nat × Nat)) (k : Nat) :
    totalScore (hints.foldl (fun acc h => flatMapAdd acc h.1 h.2) m) k =
      totalScore m k + totalScore hints k := by
  induction hints generalizing m with
  | nil => simp [totalScore]
  | cons h rest ih =>
    simp only [List.foldl_cons]
    rw [ih, flatMapAdd_totalScore, totalScore_cons]
    omega

theorem mem_keys_flatMapAdd (m : List (Nat × Nat)) (k s : Nat) :
    k ∈ (flatMapAdd m k s).map Prod.fst := by
  induction m with
  | nil => simp [flatMapAdd]
  | cons a rest ih =>
    by_cases h1 : k < a.1
    · rw [flatMapAdd_lt_eq a rest k s h1]
      simp
    · by_cases h2 : k = a.1
      · rw [flatMapAdd_eq_eq a rest k s h1 h2]
        simp [h2]
      · rw [flatMapAdd_gt_eq a rest k s h1 h2]
        simp [ih]

theorem keys_flatMapAdd_subset (m : List (Nat × Nat)) (k s x : Nat)
    (hx : x ∈ (flatMapAdd m k s).map Prod.fst) :
    x = k ∨ x ∈ m.map Prod.fst := by
  induction m with
  | nil => simpa [flatMapAdd] using hx
  | cons a rest ih =>
    by_cases h1 : k < a.1
    · rw [flatMapAdd_lt_eq a rest k s h1] at hx
      simp only [List.map_cons, List.mem_cons] at hx ⊢
      tauto
    · by_cases h2 : k = a.1
      · rw [flatMapAdd_eq_eq a rest k s h1 h2] at hx
        simp only [List.map_cons, List.mem_cons] at hx ⊢
        tauto
      · rw [flatMapAdd_gt_eq a rest k s h1 h2] at hx
        simp only [List.map_cons, List.mem_cons] at hx ⊢
        rcases hx with hx | hx
        · exact Or.inr (Or.inl hx)
        · rcases ih hx with h | h
          · exact Or.inl h
          · exact Or.inr (Or.inr h)

theorem keys_subset_flatMapAdd (m : List (Nat × Nat)) (k s x : Nat)
    (hx : x ∈ m.map Prod.fst) : x ∈ (flatMapAdd m k s).map Prod.fst := by
  induction m with
  | nil => simp at hx
  | cons a rest ih =>
    simp only [List.map_cons, List.mem_cons] at hx
    by_cases h1 : k < a.1
    · rw [flatMapAdd_lt_eq a rest k s h1]
      simp only [List.map_cons, List.mem_cons]
      tauto
    · by_cases h2 : k = a.1
      · rw [flatMapAdd_eq_eq a rest k s h1 h2]
        simp only [List.map_cons, List.mem_cons]
        tauto
      · rw [flatMapAdd_gt_eq a rest k s h1 h2]
        simp only [List.map_cons, List.mem_cons]
        rcases hx with hx | hx
        · exact Or.inl hx
        · exact Or.inr (ih hx)

theorem keys_subset_foldl (hints : List (Nat × Nat)) (m : List (Nat × Nat))
    (x : Nat) (hx : x ∈ m.map Prod.fst) :
    x ∈ (hints.foldl (fun acc h => flatMapAdd acc h.1 h.2) m).map Prod.fst := by
  induction hints generalizing m with
  | nil => simpa using hx
  | cons h rest ih =>
    simp only [List.foldl_cons]
    exact ih _ (keys_subset_flatMapAdd m h.1 h.2 x hx)

theorem mem_keys_foldl (hints : List (Nat × Nat)) (m : List (Nat × Nat))
    (h : Nat × Nat) (hh : h ∈ hints) :
    h.1 ∈ (hints.foldl (fun acc e => flatMapAdd acc e.1 e.2) m).map Prod.fst := by
  induction hints generalizing m with
  | nil => simp at hh
  | cons a rest ih =>
    simp only [List.foldl_cons]
    rcases List.mem_cons.mp hh with rfl | hh
    · exact keys_subset_foldl rest _ h.1 (mem_keys_flatMapAdd m h.1 h.2)
    · exact ih _ hh

theorem keys_foldl_subset (hints : List (Nat × Nat)) (m : List (Nat × Nat))
    (x : Nat)
    (hx : x ∈ (hints.foldl (fun acc h => flatMapAdd acc h.1 h.2) m).map Prod.fst) :
    x ∈ m.map Prod.fst ∨ ∃ h ∈ hints, h.1 = x := by
  induction hints generalizing m with
  | nil => exact Or.inl (by simpa using hx)
  | cons a rest ih =>
    simp only [List.foldl_cons] at hx
    rcases ih _ hx with h | h
    · rcases keys_flatMapAdd_subset m a.1 a.2 x h with h | h
      · exact Or.inr ⟨a, List.mem_cons_self a rest, h.symm⟩
      · exact Or.inl h
    · obtain ⟨e, he, heq⟩ := h
      exact Or.inr ⟨e, List.mem_cons_of_mem a he, heq⟩

theorem flatMapAdd_pairwise (m : List (Nat × Nat)) (k s : Nat)
    (hm : m.Pairwise (fun a b => a.1 < b.1)) :
    (flatMapAdd m k s).Pairwise (fun a b => a.1 < b.1) := by
  induction m with
  | nil => simp [flatMapAdd]
  | cons a rest ih =>
    rw [List.pairwise_cons] at hm
    obtain ⟨ha, hrest⟩ := hm
    by_cases h1 : k < a.1
    · rw [flatMapAdd_lt_eq a rest k s h1]
      refine List.Pairwise.cons ?_ (List.Pairwise.cons ha hrest)
      intro b hb
      rcases List.mem_cons.mp hb with hba | hb
      · rw [hba]; exact h1
      · exact lt_trans h1 (ha b hb)
    · by_cases h2 : k = a.1
      · rw [flatMapAdd_eq_eq a rest k s h1 h2]
        exact List.Pairwise.cons ha hrest
      · rw [flatMapAdd_gt_eq a rest k s h1 h2]
        refine List.Pairwise.cons ?_ (ih hrest)
        intro b hbm
        have hak : a.1 < k := by omega
        have hbk := keys_flatMapAdd_subset rest k s b.1
          (List.mem_map_of_mem Prod.fst hbm)
        rcases hbk with h | h
        · omega
        · obtain ⟨e, he, heq⟩ := List.mem_map.mp h
          have := ha e he
          omega

theorem foldl_flatMapAdd_pairwise (hints : List (Nat × Nat))
    (m : List (Nat × Nat)) (hm : m.Pairwise (fun a b => a.1 < b.1)) :
    (hints.foldl (fun acc h => flatMapAdd acc h.1 h.2) m).Pairwise
      (fun a b => a.1 < b.1) := by
  induction hints generalizing m with
  | nil => simpa using hm
  | cons a rest ih =>
    simp only [List.foldl_cons]
    exact ih _ (flatMapAdd_pairwise m a.1 a.2 hm)

theorem totalScore_eq_of_mem (m : List (Nat × Nat))
    (hm : m.Pairwise (fun a b => a.1 < b.1)) (e : Nat × Nat) (he : e ∈ m) :
    totalScore m e.1 = e.2 := by
  induction m with
  | nil => simp at he
  | cons a rest ih =>
    rw [List.pairwise_cons] at hm
    obtain ⟨ha, hrest⟩ := hm
    rcases List.mem_cons.mp he with rfl | he
    · rw [totalScore_cons]
      have hz : totalScore rest e.1 = 0 :=
        totalScore_eq_zero rest e.1 (fun x hx => by have := ha x hx; omega)
      simp [hz]
    · rw [totalScore_cons]
      have hne : a.1 ≠ e.1 := by have := ha e he; omega
      simp only [hne, if_false]
      simpa using ih hrest he

theorem maxElementFirst_spec (x : Nat × Nat) (xs : List (Nat × Nat))
    (hsorted : (x :: xs).Pairwise (fun a b => a.1 < b.1)) :
    ∃ best, maxElementFirst (x :: xs) = some best ∧ best ∈ x :: xs ∧
      ∀ y ∈ x :: xs, y.2 ≤ best.2 ∧ (y.2 = best.2 → best.1 ≤ y.1) := by
  induction xs generalizing x with
  | nil =>
    refine ⟨x, rfl, List.mem_cons_self x [], ?_⟩
    intro y hy
    rcases List.mem_cons.mp hy with h | h
    · rw [h]
      exact ⟨le_refl _, fun _ => le_refl _⟩
    · simp at h
  | cons y0 tl ih =>
    rw [List.pairwise_cons] at hsorted
    obtain ⟨hx, hsorted1⟩ := hsorted
    have hy0lt : ∀ b ∈ tl, y0.1 < b.1 := (List.pairwise_cons.mp hsorted1).1
    have htl := (List.pairwise_cons.mp hsorted1).2
    set x' : Nat × Nat := if x.2 < y0.2 then y0 else x with hx'
    have hx'cases : x' = y0 ∧ x.2 < y0.2 ∨ x' = x ∧ y0.2 ≤ x.2 := by
      rw [hx']
      by_cases h : x.2 < y0.2
      · exact Or.inl ⟨by simp [h], h⟩
      · exact Or.inr ⟨by simp [h], by omega⟩
    have hx'lt : ∀ b ∈ tl, x'.1 < b.1 := by
      intro b hb
      rcases hx'cases with ⟨h, _⟩ | ⟨h, _⟩
      · rw [h]; exact hy0lt b hb
      · rw [h]; exact hx b (List.mem_cons_of_mem y0 hb)
    obtain ⟨best, hbeq, hbmem, hbprop⟩ :=
      ih x' (List.Pairwise.cons hx'lt htl)
    have heq : maxElementFirst (x :: y0 :: tl) = some best := by
      unfold maxElementFirst at hbeq ⊢
      simpa [hx'] using hbeq
    have hx'prop := hbprop x' (List.mem_cons_self x' tl)
    refine ⟨best, heq, ?_, ?_⟩
    · rcases List.mem_cons.mp hbmem with hb | hb
      · rcases hx'cases with ⟨h, _⟩ | ⟨h, _⟩
        · rw [hb, h]
          exact List.mem_cons_of_mem x (List.mem_cons_self y0 tl)
        · rw [hb, h]
          exact List.mem_cons_self x (y0 :: tl)
      · exact List.mem_cons_of_mem x (List.mem_cons_of_mem y0 hb)
    · intro y hy
      rcases List.mem_cons.mp hy with hyx | hy
      · rcases hx'cases with ⟨h, hlt⟩ | ⟨h, hge⟩
        · have h1 : y0.2 ≤ best.2 := by
            rw [← h]
            exact hx'prop.1
          rw [hyx]
          exact ⟨by omega, fun hcontra => by omega⟩
        · have hp : x.2 ≤ best.2 ∧ (x.2 = best.2 → best.1 ≤ x.1) := by
            rw [← h]
            exact hx'prop
          rw [hyx]
          exact hp
      · rcases List.mem_cons.mp hy with hyy | hy
        · rcases hx'cases with ⟨h, hlt⟩ | ⟨h, hge⟩
          · have hp : y0.2 ≤ best.2 ∧ (y0.2 = best.2 → best.1 ≤ y0.1) := by
              rw [← h]
              exact hx'prop
            rw [hyy]
            exact hp
          · have hp : x.2 ≤ best.2 ∧ (x.2 = best.2 → best.1 ≤ x.1) := by
              rw [← h]
              exact hx'prop
            have h1 := hp.1
            rw [hyy]
            refine ⟨by omega, ?_⟩
            intro hcontra
            have hx2 : x.2 = best.2 := by omega
            have h3 := hp.2 hx2
            have h4 : x.1 < y0.1 := hx y0 (List.mem_cons_self y0 tl)
            omega
        · exact hbprop y (List.mem_cons_of_mem x' hy)

/-- Claim C2 counterexample: with two hints of equal score 3 on distinct
types whose keys are 5 (inserted first) and 2 (inserted second), the code
(`flat_map` ordered by key plus first `max_element`) selects type 2, while
the spec's insertion-order tie-break would select type 5. -/
theorem infer_type_select_tie_counterexample :
    infer_type_select [(5, 3), (2, 3)] = some 2 ∧
    infer_type_select_spec [(5, 3), (2, 3)] = some 5 ∧
    infer_type_select [(5, 3), (2, 3)] ≠ infer_type_select_spec [(5, 3), (2, 3)] := by
  refine ⟨by decide, by decide, by decide⟩

/-- Claim C2 (amended): the per-use hints are accumulated by summing scores
for identical types in the `flat_map`, and the highest-total type is
selected; when two distinct types tie on the maximal summed score, the tie
is broken by the map's key order (the smallest `ar::Type*` key, i.e. the
first maximal entry in key-sorted iteration order), not by insertion
order. -/
theorem infer_type_select_max (hints : List (Nat × Nat)) (hne : hints ≠ []) :
    ∃ k, infer_type_select hints = some k ∧
      (∃ h ∈ hints, h.1 = k) ∧
      (∀ h ∈ hints, totalScore hints h.1 ≤ totalScore hints k) ∧
      (∀ h ∈ hints, totalScore hints h.1 = totalScore hints k → k ≤ h.1) := by
  have hpair := foldl_flatMapAdd_pairwise hints [] (by simp)
  obtain ⟨h0, hh0⟩ : ∃ h, h ∈ hints := by
    cases hints with
    | nil => simp at hne
    | cons a t => exact ⟨a, List.mem_cons_self a t⟩
  have hkey0 := mem_keys_foldl hints [] h0 hh0
  set m := hints.foldl (fun acc h => flatMapAdd acc h.1 h.2) [] with hmdef
  have hmne : m ≠ [] := by
    intro h
    rw [h] at hkey0
    simp at hkey0
  obtain ⟨x, xs, hxs⟩ : ∃ x xs, m = x :: xs := by
    cases hm2 : m with
    | nil => exact absurd hm2 hmne
    | cons a t => exact ⟨a, t, rfl⟩
  obtain ⟨best, hbeq, hbmem, hbprop⟩ := maxElementFirst_spec x xs (hxs ▸ hpair)
  have hvalue : ∀ e ∈ m, e.2 = totalScore hints e.1 := by
    intro e he
    have h1 := totalScore_eq_of_mem m hpair e he
    have h2 := foldl_flatMapAdd_totalScore hints [] e.1
    rw [← hmdef] at h2
    have h3 : totalScore ([] : List (Nat × Nat)) e.1 = 0 := by simp [totalScore]
    omega
  refine ⟨best.1, ?_, ?_, ?_, ?_⟩
  · unfold infer_type_select
    rw [← hmdef, hxs]
    simp [hbeq]
  · have hmemk : best.1 ∈ m.map Prod.fst :=
      List.mem_map_of_mem Prod.fst (hxs ▸ hbmem)
    rcases keys_foldl_subset hints [] best.1 (hmdef ▸ hmemk) with h | h
    · simp at h
    · exact h
  · intro h hh
    have hk := mem_keys_foldl hints [] h hh
    rw [← hmdef] at hk
    obtain ⟨e, hem, heq⟩ := List.mem_map.mp hk
    have he2 := hvalue e hem
    have hb2 := hvalue best (hxs ▸ hbmem)
    have hle := (hbprop e (hxs ▸ hem)).1
    rw [he2, hb2] at hle
    rw [← heq]
    exact hle
  · intro h hh htie
    have hk := mem_keys_foldl hints [] h hh
    rw [← hmdef] at hk
    obtain ⟨e, hem, heq⟩ := List.mem_map.mp hk
    have he2 := hvalue e hem
    have hb2 := hvalue best (hxs ▸ hbmem)
    have hprop := hbprop e (hxs ▸ hem)
    have htie2 : e.2 = best.2 := by
      rw [he2, hb2, heq, htie]
    have := hprop.2 htie2
    rw [heq] at this
    exact this

/-- Witness applying `infer_type_select_max` to a concrete hint list. -/
theorem infer_type_select_max_witness :
    ∃ k, infer_type_select [(5, 3), (2, 3)] = some k ∧
      (∃ h ∈ [(5, 3), (2, 3)], h.1 = k) ∧
      (∀ h ∈ [(5, 3), (2, 3)],
        totalScore [(5, 3), (2, 3)] h.1 ≤ totalScore [(5, 3), (2, 3)] k) ∧
      (∀ h ∈ [(5, 3), (2, 3)],
        totalScore [(5, 3), (2, 3)] h.1 = totalScore [(5, 3), (2, 3)] k →
          k ≤ h.1) :=
  infer_type_select_max [(5, 3), (2, 3)] (by decide)

/-! ## Claim C5 -/

theorem merge_fold_spec (dest : Nat) (outs : List BasicBlockOutput)
    (t : BBState) :
    (outs.foldl (fun acc o =>
        { acc.addSucc o.block dest with internals := acc.internals ++ [o.block] })
      t).main = t.main ∧
    (outs.foldl (fun acc o =>
        { acc.addSucc o.block dest with internals := acc.internals ++ [o.block] })
      t).nextId = t.nextId ∧
    (outs.foldl (fun acc o =>
        { acc.addSucc o.block dest with internals := acc.internals ++ [o.block] })
      t).outputs = t.outputs ∧
    (outs.foldl (fun acc o =>
        { acc.addSucc o.block dest with internals := acc.internals ++ [o.block] })
      t).internals = t.internals ++ outs.map (·.block) ∧
    (∀ j, j ∉ outs.map (·.block) →
      (outs.foldl (fun acc o =>
          { acc.addSucc o.block dest with internals := acc.internals ++ [o.block] })
        t).blocks j = t.blocks j) ∧
    ((outs.map (·.block)).Nodup →
      ∀ o ∈ outs,
        (outs.foldl (fun acc o =>
            { acc.addSucc o.block dest with internals := acc.internals ++ [o.block] })
          t).blocks o.block =
          { t.blocks o.block with succs := (t.blocks o.block).succs ++ [dest] }) := by
  induction outs generalizing t with
  | nil => simp
  | cons o rest ih =>
    simp only [List.foldl_cons]
    obtain ⟨ihmain, ihnext, ihout, ihint, ihframe, ihpar⟩ :=
      ih { t.addSucc o.block dest with internals := t.internals ++ [o.block] }
    refine ⟨ihmain, ihnext, ihout, ?_, ?_, ?_⟩
    · rw [ihint]
      simp [BBState.addSucc, BBState.setBlock, List.append_assoc]
    · intro j hj
      simp only [List.map_cons, List.mem_cons] at hj
      push_neg at hj
      rw [ihframe j hj.2]
      simp [BBState.addSucc, BBState.setBlock, hj.1]
    · intro hnodup p hp
      simp only [List.map_cons, List.nodup_cons] at hnodup
      rcases List.mem_cons.mp hp with hpo | hp
      · rw [hpo]
        have hnot : o.block ∉ rest.map (·.block) := hnodup.1
        rw [ihframe o.block hnot]
        simp [BBState.addSucc, BBState.setBlock]
      · have hne : p.block ≠ o.block := by
          intro h
          exact hnodup.1 (h ▸ List.mem_map_of_mem (·.block) hp)
        rw [ihpar hnodup.2 p hp]
        simp [BBState.addSucc, BBState.setBlock, hne]

theorem merge_outputs_spec (s : BBState) (h2 : 2 ≤ s.outputs.length)
    (hfresh : ∀ o ∈ s.outputs, o.block < s.nextId)
    (hnodup : (s.outputs.map (·.block)).Nodup) :
    (s.merge_outputs).outputs = [⟨s.nextId, none⟩] ∧
    (s.merge_outputs).internals = s.internals ++ s.outputs.map (·.block) ∧
    (s.merge_outputs).nextId = s.nextId + 1 ∧
    (s.merge_outputs).main = s.main ∧
    (s.merge_outputs).blocks s.nextId = ARBlock.empty ∧
    (∀ o ∈ s.outputs, (s.merge_outputs).blocks o.block =
      { s.blocks o.block with succs := (s.blocks o.block).succs ++ [s.nextId] }) ∧
    (∀ j, j ∉ s.outputs.map (·.block) → j ≠ s.nextId →
      (s.merge_outputs).blocks j = s.blocks j) := by
  have hlt : ¬s.outputs.length < 2 := by omega
  have hrw : s.merge_outputs =
      { s.outputs.foldl (fun acc o =>
          { acc.addSucc o.block s.nextId with
              internals := acc.internals ++ [o.block] })
          { s.setBlock s.nextId ARBlock.empty with nextId := s.nextId + 1 } with
        outputs := [⟨s.nextId, none⟩] } := by
    unfold BBState.merge_outputs
    rw [if_neg hlt]
    rfl
  obtain ⟨hmain, hnext, hout, hint, hframe, hpar⟩ :=
    merge_fold_spec s.nextId s.outputs
      { s.setBlock s.nextId ARBlock.empty with nextId := s.nextId + 1 }
  have hnid : s.nextId ∉ s.outputs.map (·.block) := by
    intro h
    obtain ⟨o, ho, heq⟩ := List.mem_map.mp h
    have := hfresh o ho
    omega
  refine ⟨?_, ?_, ?_, ?_, ?_, ?_, ?_⟩
  · rw [hrw]
  · rw [hrw]
    dsimp only
    rw [hint]
    simp [BBState.setBlock]
  · rw [hrw]
    dsimp only
    rw [hnext]
  · rw [hrw]
    dsimp only
    rw [hmain]
    simp [BBState.setBlock]
  · rw [hrw]
    dsimp only
    rw [hframe s.nextId hnid]
    simp [BBState.setBlock]
  · intro o ho
    rw [hrw]
    dsimp only
    rw [hpar hnodup o ho]
    have hne : o.block ≠ s.nextId := by
      have := hfresh o ho
      omega
    simp [BBState.setBlock, hne]
  · intro j hj hjne
    rw [hrw]
    dsimp only
    rw [hframe j hj]
    simp [BBState.setBlock, hjne]

/-- Claim C5: before translating an instruction while more than one output
is open, the outputs are merged into a single fresh block (every current
output, each with null successor, gets an edge to the fresh block and moves
to the internals, the fresh block becoming the sole output), unless the
instruction is a comparison, a binary operator or a branch, in which case
the state is untouched. -/
theorem translate_instruction_pre_spec (s : BBState) (inst : InstKind)
    (hsucc : ∀ o ∈ s.outputs, o.succ = none)
    (hfresh : ∀ o ∈ s.outputs, o.block < s.nextId)
    (hnodup : (s.outputs.map (·.block)).Nodup) :
    (1 < s.outputs.length → inst ≠ .cmpInst → inst ≠ .binaryOperator →
      inst ≠ .branchInst →
      translate_instruction_pre s inst = s.merge_outputs ∧
      (translate_instruction_pre s inst).outputs = [⟨s.nextId, none⟩] ∧
      (translate_instruction_pre s inst).internals =
        s.internals ++ s.outputs.map (·.block) ∧
      (translate_instruction_pre s inst).blocks s.nextId = ARBlock.empty ∧
      (∀ o ∈ s.outputs, (translate_instruction_pre s inst).blocks o.block =
        { s.blocks o.block with
            succs := (s.blocks o.block).succs ++ [s.nextId] })) ∧
    ((s.outputs.length ≤ 1 ∨ inst = .cmpInst ∨ inst = .binaryOperator ∨
        inst = .branchInst) →
      translate_instruction_pre s inst = s) := by
  constructor
  · intro hlen hc hb hbr
    have heq : translate_instruction_pre s inst = s.merge_outputs := by
      unfold translate_instruction_pre
      simp [hlen, hc, hb, hbr]
    obtain ⟨ho, hi, _, _, hempty, hpar, _⟩ :=
      merge_outputs_spec s (by omega) hfresh hnodup
    refine ⟨heq, ?_, ?_, ?_, ?_⟩
    · rw [heq]; exact ho
    · rw [heq]; exact hi
    · rw [heq]; exact hempty
    · intro o hmem
      rw [heq]
      exact hpar o hmem
  · intro h
    unfold translate_instruction_pre
    rcases h with h | h | h | h
    · have hn : ¬1 < s.outputs.length := by omega
      simp [hn]
    · simp [h]
    · simp [h]
    · simp [h]

/-- Witness applying `translate_instruction_pre_spec` to a concrete
two-output state (for a load) and to a comparison. -/
theorem translate_instruction_pre_spec_witness :
    (translate_instruction_pre (sampleFanoutState ⟨5, .integer 1 .unsigned⟩)
        .loadInst =
      (sampleFanoutState ⟨5, .integer 1 .unsigned⟩).merge_outputs ∧
      (translate_instruction_pre (sampleFanoutState ⟨5, .integer 1 .unsigned⟩)
        .loadInst).outputs = [⟨3, none⟩] ∧
      (translate_instruction_pre (sampleFanoutState ⟨5, .integer 1 .unsigned⟩)
        .loadInst).internals = [0] ++ [1, 2] ∧
      (translate_instruction_pre (sampleFanoutState ⟨5, .integer 1 .unsigned⟩)
        .loadInst).blocks 3 = ARBlock.empty ∧
      (∀ o ∈ (sampleFanoutState ⟨5, .integer 1 .unsigned⟩).outputs,
        (translate_instruction_pre (sampleFanoutState ⟨5, .integer 1 .unsigned⟩)
          .loadInst).blocks o.block =
        { (sampleFanoutState ⟨5, .integer 1 .unsigned⟩).blocks o.block with
            succs := ((sampleFanoutState ⟨5, .integer 1 .unsigned⟩).blocks
              o.block).succs ++ [3] })) ∧
    translate_instruction_pre (sampleFanoutState ⟨5, .integer 1 .unsigned⟩)
      .cmpInst = sampleFanoutState ⟨5, .integer 1 .unsigned⟩ := by
  constructor
  · exact (translate_instruction_pre_spec (sampleFanoutState ⟨5, .integer 1 .unsigned⟩)
      .loadInst (by decide) (by decide) (by decide)).1
      (by decide) (by decide) (by decide) (by decide)
  · exact (translate_instruction_pre_spec (sampleFanoutState ⟨5, .integer 1 .unsigned⟩)
      .cmpInst (by decide) (by decide) (by decide)).2 (Or.inr (Or.inl rfl))

/-! ## Claim C4 -/

theorem add_comparison_output_bb_spec (s : BBState) (src : Nat) (c : Stmt)
    (var : IVar) (value : Bool) (hsrc : src < s.nextId) :
    (s.add_comparison_output_bb src c var value).main = s.main ∧
    (s.add_comparison_output_bb src c var value).nextId = s.nextId + 1 ∧
    (s.add_comparison_output_bb src c var value).internals = s.internals ∧
    (s.add_comparison_output_bb src c var value).outputs =
      s.outputs ++ [⟨s.nextId, none⟩] ∧
    (s.add_comparison_output_bb src c var value).blocks s.nextId =
      ⟨[c, create_bool_assignment var value], []⟩ ∧
    (s.add_comparison_output_bb src c var value).blocks src =
      ⟨(s.blocks src).stmts, (s.blocks src).succs ++ [s.nextId]⟩ ∧
    (∀ j, j ≠ s.nextId → j ≠ src →
      (s.add_comparison_output_bb src c var value).blocks j = s.blocks j) := by
  have hne : ¬(s.nextId = src) := by omega
  unfold BBState.add_comparison_output_bb BBState.createBlock BBState.pushStmt
    BBState.addSucc BBState.setBlock
  dsimp only
  have hne2 : ¬(src = s.nextId) := by omega
  refine ⟨rfl, rfl, rfl, rfl, ?_, ?_, ?_⟩
  · simp [hne, ARBlock.empty]
  · simp [hne, hne2]
  · intro j hj1 hj2
    simp [hj1, hj2]

theorem add_comparison_step_spec (acc : BBState) (o : BasicBlockOutput)
    (var : IVar) (cmp : CmpStmt) (ho : o.block < acc.nextId) :
    (({ acc with internals := acc.internals ++ [o.block]
        }.add_comparison_output_bb o.block cmp.toStmt var
          true).add_comparison_output_bb o.block cmp.inverse.toStmt var
        false).main = acc.main ∧
    (({ acc with internals := acc.internals ++ [o.block]
        }.add_comparison_output_bb o.block cmp.toStmt var
          true).add_comparison_output_bb o.block cmp.inverse.toStmt var
        false).nextId = acc.nextId + 2 ∧
    (({ acc with internals := acc.internals ++ [o.block]
        }.add_comparison_output_bb o.block cmp.toStmt var
          true).add_comparison_output_bb o.block cmp.inverse.toStmt var
        false).internals = acc.internals ++ [o.block] ∧
    (({ acc with internals := acc.internals ++ [o.block]
        }.add_comparison_output_bb o.block cmp.toStmt var
          true).add_comparison_output_bb o.block cmp.inverse.toStmt var
        false).outputs =
      acc.outputs ++ [⟨acc.nextId, none⟩, ⟨acc.nextId + 1, none⟩] ∧
    (({ acc with internals := acc.internals ++ [o.block]
        }.add_comparison_output_bb o.block cmp.toStmt var
          true).add_comparison_output_bb o.block cmp.inverse.toStmt var
        false).blocks acc.nextId =
      ⟨[cmp.toStmt, create_bool_assignment var true], []⟩ ∧
    (({ acc with internals := acc.internals ++ [o.block]
        }.add_comparison_output_bb o.block cmp.toStmt var
          true).add_comparison_output_bb o.block cmp.inverse.toStmt var
        false).blocks (acc.nextId + 1) =
      ⟨[cmp.inverse.toStmt, create_bool_assignment var false], []⟩ ∧
    (({ acc with internals := acc.internals ++ [o.block]
        }.add_comparison_output_bb o.block cmp.toStmt var
          true).add_comparison_output_bb o.block cmp.inverse.toStmt var
        false).blocks o.block =
      ⟨(acc.blocks o.block).stmts,
       (acc.blocks o.block).succs ++ [acc.nextId, acc.nextId + 1]⟩ ∧
    (∀ j, j ≠ o.block → j ≠ acc.nextId → j ≠ acc.nextId + 1 →
      (({ acc with internals := acc.internals ++ [o.block]
          }.add_comparison_output_bb o.block cmp.toStmt var
            true).add_comparison_output_bb o.block cmp.inverse.toStmt var
          false).blocks j = acc.blocks j) := by
  obtain ⟨m1, n1, i1, o1, c1, p1, f1⟩ :=
    add_comparison_output_bb_spec { acc with internals := acc.internals ++ [o.block] }
      o.block cmp.toStmt var true ho
  have hn1 : ({ acc with internals := acc.internals ++ [o.block]
      } : BBState).nextId = acc.nextId := rfl
  rw [hn1] at n1 c1 p1 o1
  have ho2 : o.block < (({ acc with internals := acc.internals ++ [o.block]
      } : BBState).add_comparison_output_bb o.block cmp.toStmt var true).nextId := by
    rw [n1]
    omega
  obtain ⟨m2, n2, i2, o2, c2, p2, f2⟩ :=
    add_comparison_output_bb_spec
      (({ acc with internals := acc.internals ++ [o.block]
        } : BBState).add_comparison_output_bb o.block cmp.toStmt var true)
      o.block cmp.inverse.toStmt var false ho2
  rw [n1] at n2 c2 o2 p2
  refine ⟨?_, ?_, ?_, ?_, ?_, ?_, ?_, ?_⟩
  · rw [m2, m1]
  · rw [n2]
  · rw [i2, i1]
  · rw [o2, o1]
    simp
  · have hne1 : acc.nextId ≠ acc.nextId + 1 := by omega
    have hne2 : acc.nextId ≠ o.block := by omega
    rw [f2 acc.nextId hne1 hne2, c1]
  · exact c2
  · rw [p2, p1]
    simp
  · intro j hj1 hj2 hj3
    rw [f2 j hj3 hj1, f1 j hj2 hj1]

theorem add_comparison_fold_spec (var : IVar) (cmp : CmpStmt)
    (outs : List BasicBlockOutput) (t : BBState)
    (hfresh : ∀ o ∈ outs, o.block < t.nextId)
    (hnodup : (outs.map (·.block)).Nodup) :
    (outs.foldl (fun acc o =>
        ({ acc with internals := acc.internals ++ [o.block]
          }.add_comparison_output_bb o.block cmp.toStmt var
            true).add_comparison_output_bb o.block cmp.inverse.toStmt var false)
      t).main = t.main ∧
    (outs.foldl (fun acc o =>
        ({ acc with internals := acc.internals ++ [o.block]
          }.add_comparison_output_bb o.block cmp.toStmt var
            true).add_comparison_output_bb o.block cmp.inverse.toStmt var false)
      t).nextId = t.nextId + 2 * outs.length ∧
    (outs.foldl (fun acc o =>
        ({ acc with internals := acc.internals ++ [o.block]
          }.add_comparison_output_bb o.block cmp.toStmt var
            true).add_comparison_output_bb o.block cmp.inverse.toStmt var false)
      t).internals = t.internals ++ outs.map (·.block) ∧
    (outs.foldl (fun acc o =>
        ({ acc with internals := acc.internals ++ [o.block]
          }.add_comparison_output_bb o.block cmp.toStmt var
            true).add_comparison_output_bb o.block cmp.inverse.toStmt var false)
      t).outputs = t.outputs ++ (List.range outs.length).flatMap
        (fun i => [⟨t.nextId + 2 * i, none⟩, ⟨t.nextId + 2 * i + 1, none⟩]) ∧
    (∀ i, i < outs.length →
      (outs.foldl (fun acc o =>
          ({ acc with internals := acc.internals ++ [o.block]
            }.add_comparison_output_bb o.block cmp.toStmt var
              true).add_comparison_output_bb o.block cmp.inverse.toStmt var false)
        t).blocks (t.nextId + 2 * i) =
        ⟨[cmp.toStmt, create_bool_assignment var true], []⟩ ∧
      (outs.foldl (fun acc o =>
          ({ acc with internals := acc.internals ++ [o.block]
            }.add_comparison_output_bb o.block cmp.toStmt var
              true).add_comparison_output_bb o.block cmp.inverse.toStmt var false)
        t).blocks (t.nextId + 2 * i + 1) =
        ⟨[cmp.inverse.toStmt, create_bool_assignment var false], []⟩) ∧
    (∀ i, ∀ hi : i < outs.length,
      (outs.foldl (fun acc o =>
          ({ acc with internals := acc.internals ++ [o.block]
            }.add_comparison_output_bb o.block cmp.toStmt var
              true).add_comparison_output_bb o.block cmp.inverse.toStmt var false)
        t).blocks (outs.get ⟨i, hi⟩).block =
        ⟨(t.blocks (outs.get ⟨i, hi⟩).block).stmts,
         (t.blocks (outs.get ⟨i, hi⟩).block).succs ++
           [t.nextId + 2 * i, t.nextId + 2 * i + 1]⟩) ∧
    (∀ j, j < t.nextId → j ∉ outs.map (·.block) →
      (outs.foldl (fun acc o =>
          ({ acc with internals := acc.internals ++ [o.block]
            }.add_comparison_output_bb o.block cmp.toStmt var
              true).add_comparison_output_bb o.block cmp.inverse.toStmt var false)
        t).blocks j = t.blocks j) := by
  induction outs using List.reverseRecOn with
  | nil => simp
  | append_singleton outs0 o ih =>
    have hfresh0 : ∀ p ∈ outs0, p.block < t.nextId := fun p hp =>
      hfresh p (List.mem_append_left _ hp)
    have hofresh : o.block < t.nextId :=
      hfresh o (List.mem_append_right _ (List.mem_cons_self o []))
    have hnodup0 : (outs0.map (·.block)).Nodup := by
      rw [List.map_append] at hnodup
      exact (List.nodup_append.mp hnodup).1
    have honotin : o.block ∉ outs0.map (·.block) := by
      rw [List.map_append] at hnodup
      have := (List.nodup_append.mp hnodup).2.2
      intro hmem
      exact this hmem (by simp)
    obtain ⟨ihm, ihn, ihi, iho, ihc, ihp, ihf⟩ := ih hfresh0 hnodup0
    simp only [List.foldl_append, List.foldl_cons, List.foldl_nil]
    obtain ⟨sm, sn, si, so, sc1, sc2, sp, sf⟩ :=
      add_comparison_step_spec
        (outs0.foldl (fun acc o =>
          ({ acc with internals := acc.internals ++ [o.block]
            }.add_comparison_output_bb o.block cmp.toStmt var
              true).add_comparison_output_bb o.block cmp.inverse.toStmt var false)
          t) o var cmp (by rw [ihn]; omega)
    refine ⟨?_, ?_, ?_, ?_, ?_, ?_, ?_⟩
    · rw [sm, ihm]
    · rw [sn, ihn]
      simp
      omega
    · rw [si, ihi]
      simp
    · rw [so, iho, ihn]
      rw [List.length_append, List.length_cons, List.length_nil]
      rw [List.range_succ, List.flatMap_append]
      simp [List.append_assoc]
    · intro i hi
      rw [List.length_append, List.length_cons, List.length_nil] at hi
      by_cases hilt : i < outs0.length
      · obtain ⟨hcl, hcr⟩ := ihc i hilt
        constructor
        · rw [sf (t.nextId + 2 * i) (by have hx := hofresh; omega)
              (by rw [ihn]; omega) (by rw [ihn]; omega)]
          exact hcl
        · rw [sf (t.nextId + 2 * i + 1) (by have hx := hofresh; omega)
              (by rw [ihn]; omega) (by rw [ihn]; omega)]
          exact hcr
      · have hieq : i = outs0.length := by omega
        subst hieq
        constructor
        · rw [← ihn]
          exact sc1
        · rw [← ihn]
          exact sc2
    · intro i hi
      rw [List.length_append, List.length_cons, List.length_nil] at hi
      by_cases hilt : i < outs0.length
      · have hget : (outs0 ++ [o]).get ⟨i, by simp; omega⟩ =
            outs0.get ⟨i, hilt⟩ := by
          rw [List.get_append _ hilt]
        rw [hget]
        have hpar := ihp i hilt
        have hpb : (outs0.get ⟨i, hilt⟩).block < t.nextId :=
          hfresh0 _ (outs0.get_mem _ _)
        have hpne : (outs0.get ⟨i, hilt⟩).block ≠ o.block := by
          intro hcontra
          exact honotin (hcontra ▸ List.mem_map_of_mem (·.block)
            (outs0.get_mem _ _))
        rw [sf _ hpne (by rw [ihn]; omega) (by rw [ihn]; omega)]
        exact hpar
      · have hieq : i = outs0.length := by omega
        subst hieq
        have hget : (outs0 ++ [o]).get ⟨outs0.length, by simp⟩ = o := by
          simp [List.get_append_right]
        rw [hget]
        rw [sp, ihf o.block hofresh honotin, ihn]
    · intro j hj hjnot
      rw [List.map_append] at hjnot
      simp only [List.mem_append] at hjnot
      push_neg at hjnot
      have hjno : j ≠ o.block := by
        intro hcontra
        exact hjnot.2 (by simp [hcontra])
      rw [sf j hjno (by rw [ihn]; omega) (by rw [ihn]; omega)]
      exact ihf j hj hjnot.1

theorem add_comparison_eq_fold (s : BBState) (var : IVar) (cmp : CmpStmt) :
    s.add_comparison var cmp =
      s.outputs.foldl (fun acc o =>
        ({ acc with internals := acc.internals ++ [o.block]
          }.add_comparison_output_bb o.block cmp.toStmt var
            true).add_comparison_output_bb o.block cmp.inverse.toStmt var false)
        { s with outputs := [] } := by
  obtain ⟨main, outputs, internals, blocks, nextId⟩ := s
  unfold BBState.add_comparison
  rcases outputs with _ | ⟨a, _ | ⟨b, rest⟩⟩ <;> rfl

theorem length_flatMap_children (n k : Nat) :
    ((List.range n).flatMap (fun i =>
      [BasicBlockOutput.mk (k + 2 * i) none,
       BasicBlockOutput.mk (k + 2 * i + 1) none])).length = 2 * n := by
  induction n with
  | zero => simp
  | succ m ih =>
    rw [List.range_succ, List.flatMap_append, List.length_append, ih]
    simp
    omega

/-- Claim C4: `add_comparison` closes every previously open output (moving
it to the internals) and replaces it by exactly two fresh child outputs, so
the open outputs exactly double; per previous output, one child holds the
comparison statement followed by `var := true` and the other holds the
inverse comparison followed by `var := false`, both reached by new edges
from the closed parent. -/
theorem add_comparison_doubles (s : BBState) (var : IVar) (cmp : CmpStmt)
    (hfresh : ∀ o ∈ s.outputs, o.block < s.nextId)
    (hnodup : (s.outputs.map (·.block)).Nodup) :
    (s.add_comparison var cmp).outputs.length = 2 * s.outputs.length ∧
    (s.add_comparison var cmp).internals =
      s.internals ++ s.outputs.map (·.block) ∧
    (s.add_comparison var cmp).outputs = (List.range s.outputs.length).flatMap
      (fun i => [⟨s.nextId + 2 * i, none⟩, ⟨s.nextId + 2 * i + 1, none⟩]) ∧
    (∀ i, ∀ hi : i < s.outputs.length,
      (s.add_comparison var cmp).blocks (s.nextId + 2 * i) =
        ⟨[cmp.toStmt, create_bool_assignment var true], []⟩ ∧
      (s.add_comparison var cmp).blocks (s.nextId + 2 * i + 1) =
        ⟨[cmp.inverse.toStmt, create_bool_assignment var false], []⟩ ∧
      ((s.add_comparison var cmp).blocks (s.outputs.get ⟨i, hi⟩).block).succs =
        (s.blocks (s.outputs.get ⟨i, hi⟩).block).succs ++
          [s.nextId + 2 * i, s.nextId + 2 * i + 1]) := by
  have heq := add_comparison_eq_fold s var cmp
  obtain ⟨fm, fn, fi, fo, fc, fp, ff⟩ :=
    add_comparison_fold_spec var cmp s.outputs { s with outputs := [] }
      hfresh hnodup
  refine ⟨?_, ?_, ?_, ?_⟩
  · rw [heq, fo]
    dsimp only
    rw [List.length_append, length_flatMap_children]
    simp
  · rw [heq, fi]
  · rw [heq, fo]
    dsimp only
    simp
  · intro i hi
    obtain ⟨hc1, hc2⟩ := fc i hi
    refine ⟨?_, ?_, ?_⟩
    · rw [heq]
      exact hc1
    · rw [heq]
      exact hc2
    · rw [heq, fp i hi]

/-- Witness applying `add_comparison_doubles` to a concrete one-output
state. -/
theorem add_comparison_doubles_witness :
    (sampleState.add_comparison ⟨3, .integer 1 .unsigned⟩
      ⟨.SIGT, .var ⟨10, .integer 32 .signed⟩,
       .intConst (.integer 32 .signed) 0⟩).outputs.length =
      2 * sampleState.outputs.length :=
  (add_comparison_doubles sampleState ⟨3, .integer 1 .unsigned⟩
    ⟨.SIGT, .var ⟨10, .integer 32 .signed⟩,
     .intConst (.integer 32 .signed) 0⟩ (by decide) (by decide)).1

/-! ## Claim C6 -/

theorem add_conditional_output_bb_spec (s : BBState) (removeAssign : Bool)
    (src llvmDest : Nat) (cond : IVar) (value : Bool) (hsrc : src < s.nextId) :
    (s.add_conditional_output_bb removeAssign src llvmDest cond value).main =
      s.main ∧
    (s.add_conditional_output_bb removeAssign src llvmDest cond value).nextId =
      s.nextId + 1 ∧
    (s.add_conditional_output_bb removeAssign src llvmDest cond value).internals =
      s.internals ∧
    (s.add_conditional_output_bb removeAssign src llvmDest cond value).outputs =
      s.outputs ++ [⟨s.nextId, some llvmDest⟩] ∧
    (s.add_conditional_output_bb removeAssign src llvmDest cond value).blocks
        s.nextId =
      ⟨if removeAssign then []
       else [(create_bool_cmp cond value).toStmt], []⟩ ∧
    (s.add_conditional_output_bb removeAssign src llvmDest cond value).blocks
        src =
      ⟨(s.blocks src).stmts, (s.blocks src).succs ++ [s.nextId]⟩ ∧
    (∀ j, j ≠ s.nextId → j ≠ src →
      (s.add_conditional_output_bb removeAssign src llvmDest cond value).blocks
        j = s.blocks j) := by
  have hne : ¬(s.nextId = src) := by omega
  have hne2 : ¬(src = s.nextId) := by omega
  cases removeAssign <;>
    (unfold BBState.add_conditional_output_bb BBState.createBlock
      BBState.pushStmt BBState.addSucc BBState.setBlock
     dsimp only
     refine ⟨rfl, rfl, rfl, rfl, ?_, ?_, ?_⟩)
  · simp [hne, ARBlock.empty]
  · simp [hne, hne2]
  · intro j hj1 hj2
    simp [hj1, hj2]
  · simp [hne, ARBlock.empty]
  · simp [hne, hne2]
  · intro j hj1 hj2
    simp [hj1, hj2]

theorem add_conditional_step_spec (acc : BBState) (o : BasicBlockOutput)
    (br : BranchInfo) (cond : IVar) (ho : o.block < acc.nextId) :
    (({ acc with internals := acc.internals ++ [o.block]
        }.add_conditional_output_bb br.condSingleUse o.block br.trueSucc cond
          true).add_conditional_output_bb br.condSingleUse o.block br.falseSucc
        cond false).main = acc.main ∧
    (({ acc with internals := acc.internals ++ [o.block]
        }.add_conditional_output_bb br.condSingleUse o.block br.trueSucc cond
          true).add_conditional_output_bb br.condSingleUse o.block br.falseSucc
        cond false).nextId = acc.nextId + 2 ∧
    (({ acc with internals := acc.internals ++ [o.block]
        }.add_conditional_output_bb br.condSingleUse o.block br.trueSucc cond
          true).add_conditional_output_bb br.condSingleUse o.block br.falseSucc
        cond false).internals = acc.internals ++ [o.block] ∧
    (({ acc with internals := acc.internals ++ [o.block]
        }.add_conditional_output_bb br.condSingleUse o.block br.trueSucc cond
          true).add_conditional_output_bb br.condSingleUse o.block br.falseSucc
        cond false).outputs =
      acc.outputs ++ [⟨acc.nextId, some br.trueSucc⟩,
        ⟨acc.nextId + 1, some br.falseSucc⟩] ∧
    (({ acc with internals := acc.internals ++ [o.block]
        }.add_conditional_output_bb br.condSingleUse o.block br.trueSucc cond
          true).add_conditional_output_bb br.condSingleUse o.block br.falseSucc
        cond false).blocks acc.nextId =
      ⟨if br.condSingleUse then []
       else [(create_bool_cmp cond true).toStmt], []⟩ ∧
    (({ acc with internals := acc.internals ++ [o.block]
        }.add_conditional_output_bb br.condSingleUse o.block br.trueSucc cond
          true).add_conditional_output_bb br.condSingleUse o.block br.falseSucc
        cond false).blocks (acc.nextId + 1) =
      ⟨if br.condSingleUse then []
       else [(create_bool_cmp cond false).toStmt], []⟩ ∧
    (({ acc with internals := acc.internals ++ [o.block]
        }.add_conditional_output_bb br.condSingleUse o.block br.trueSucc cond
          true).add_conditional_output_bb br.condSingleUse o.block br.falseSucc
        cond false).blocks o.block =
      ⟨(acc.blocks o.block).stmts,
       (acc.blocks o.block).succs ++ [acc.nextId, acc.nextId + 1]⟩ ∧
    (∀ j, j ≠ o.block → j ≠ acc.nextId → j ≠ acc.nextId + 1 →
      (({ acc with internals := acc.internals ++ [o.block]
          }.add_conditional_output_bb br.condSingleUse o.block br.trueSucc cond
            true).add_conditional_output_bb br.condSingleUse o.block
          br.falseSucc cond false).blocks j = acc.blocks j) := by
  obtain ⟨m1, n1, i1, o1, c1, p1, f1⟩ :=
    add_conditional_output_bb_spec
      { acc with internals := acc.internals ++ [o.block] } br.condSingleUse
      o.block br.trueSucc cond true ho
  have hn1 : ({ acc with internals := acc.internals ++ [o.block]
      } : BBState).nextId = acc.nextId := rfl
  rw [hn1] at n1 c1 p1 o1
  have ho2 : o.block < (({ acc with internals := acc.internals ++ [o.block]
      } : BBState).add_conditional_output_bb br.condSingleUse o.block
        br.trueSucc cond true).nextId := by
    rw [n1]
    omega
  obtain ⟨m2, n2, i2, o2, c2, p2, f2⟩ :=
    add_conditional_output_bb_spec
      (({ acc with internals := acc.internals ++ [o.block]
        } : BBState).add_conditional_output_bb br.condSingleUse o.block
          br.trueSucc cond true)
      br.condSingleUse o.block br.falseSucc cond false ho2
  rw [n1] at n2 c2 o2 p2 f2
  refine ⟨?_, ?_, ?_, ?_, ?_, ?_, ?_, ?_⟩
  · rw [m2, m1]
  · rw [n2]
  · rw [i2, i1]
  · rw [o2, o1]
    simp
  · have hne1 : acc.nextId ≠ acc.nextId + 1 := by omega
    have hne2 : acc.nextId ≠ o.block := by omega
    rw [f2 acc.nextId hne1 hne2, c1]
  · exact c2
  · rw [p2, p1]
    simp
  · intro j hj1 hj2 hj3
    rw [f2 j hj3 hj1, f1 j hj2 hj1]

theorem add_conditional_fold_spec (br : BranchInfo) (cond : IVar)
    (outs : List BasicBlockOutput) (t : BBState)
    (hfresh : ∀ o ∈ outs, o.block < t.nextId)
    (hnodup : (outs.map (·.block)).Nodup) :
    (outs.foldl (fun acc o =>
        ({ acc with internals := acc.internals ++ [o.block]
          }.add_conditional_output_bb br.condSingleUse o.block br.trueSucc cond
            true).add_conditional_output_bb br.condSingleUse o.block
          br.falseSucc cond false)
      t).main = t.main ∧
    (outs.foldl (fun acc o =>
        ({ acc with internals := acc.internals ++ [o.block]
          }.add_conditional_output_bb br.condSingleUse o.block br.trueSucc cond
            true).add_conditional_output_bb br.condSingleUse o.block
          br.falseSucc cond false)
      t).nextId = t.nextId + 2 * outs.length ∧
    (outs.foldl (fun acc o =>
        ({ acc with internals := acc.internals ++ [o.block]
          }.add_conditional_output_bb br.condSingleUse o.block br.trueSucc cond
            true).add_conditional_output_bb br.condSingleUse o.block
          br.falseSucc cond false)
      t).internals = t.internals ++ outs.map (·.block) ∧
    (outs.foldl (fun acc o =>
        ({ acc with internals := acc.internals ++ [o.block]
          }.add_conditional_output_bb br.condSingleUse o.block br.trueSucc cond
            true).add_conditional_output_bb br.condSingleUse o.block
          br.falseSucc cond false)
      t).outputs = t.outputs ++ (List.range outs.length).flatMap
        (fun i => [⟨t.nextId + 2 * i, some br.trueSucc⟩,
          ⟨t.nextId + 2 * i + 1, some br.falseSucc⟩]) ∧
    (∀ i, i < outs.length →
      (outs.foldl (fun acc o =>
          ({ acc with internals := acc.internals ++ [o.block]
            }.add_conditional_output_bb br.condSingleUse o.block br.trueSucc
              cond true).add_conditional_output_bb br.condSingleUse o.block
            br.falseSucc cond false)
        t).blocks (t.nextId + 2 * i) =
        ⟨if br.condSingleUse then []
         else [(create_bool_cmp cond true).toStmt], []⟩ ∧
      (outs.foldl (fun acc o =>
          ({ acc with internals := acc.internals ++ [o.block]
            }.add_conditional_output_bb br.condSingleUse o.block br.trueSucc
              cond true).add_conditional_output_bb br.condSingleUse o.block
            br.falseSucc cond false)
        t).blocks (t.nextId + 2 * i + 1) =
        ⟨if br.condSingleUse then []
         else [(create_bool_cmp cond false).toStmt], []⟩) ∧
    (∀ i, ∀ hi : i < outs.length,
      (outs.foldl (fun acc o =>
          ({ acc with internals := acc.internals ++ [o.block]
            }.add_conditional_output_bb br.condSingleUse o.block br.trueSucc
              cond true).add_conditional_output_bb br.condSingleUse o.block
            br.falseSucc cond false)
        t).blocks (outs.get ⟨i, hi⟩).block =
        ⟨(t.blocks (outs.get ⟨i, hi⟩).block).stmts,
         (t.blocks (outs.get ⟨i, hi⟩).block).succs ++
           [t.nextId + 2 * i, t.nextId + 2 * i + 1]⟩) ∧
    (∀ j, j < t.nextId → j ∉ outs.map (·.block) →
      (outs.foldl (fun acc o =>
          ({ acc with internals := acc.internals ++ [o.block]
            }.add_conditional_output_bb br.condSingleUse o.block br.trueSucc
              cond true).add_conditional_output_bb br.condSingleUse o.block
            br.falseSucc cond false)
        t).blocks j = t.blocks j) := by
  induction outs using List.reverseRecOn with
  | nil => simp
  | append_singleton outs0 o ih =>
    have hfresh0 : ∀ p ∈ outs0, p.block < t.nextId := fun p hp =>
      hfresh p (List.mem_append_left _ hp)
    have hofresh : o.block < t.nextId :=
      hfresh o (List.mem_append_right _ (List.mem_cons_self o []))
    have hnodup0 : (outs0.map (·.block)).Nodup := by
      rw [List.map_append] at hnodup
      exact (List.nodup_append.mp hnodup).1
    have honotin : o.block ∉ outs0.map (·.block) := by
      rw [List.map_append] at hnodup
      have := (List.nodup_append.mp hnodup).2.2
      intro hmem
      exact this hmem (by simp)
    obtain ⟨ihm, ihn, ihi, iho, ihc, ihp, ihf⟩ := ih hfresh0 hnodup0
    simp only [List.foldl_append, List.foldl_cons, List.foldl_nil]
    obtain ⟨sm, sn, si, so, sc1, sc2, sp, sf⟩ :=
      add_conditional_step_spec
        (outs0.foldl (fun acc o =>
          ({ acc with internals := acc.internals ++ [o.block]
            }.add_conditional_output_bb br.condSingleUse o.block br.trueSucc
              cond true).add_conditional_output_bb br.condSingleUse o.block
            br.falseSucc cond false)
          t) o br cond (by rw [ihn]; omega)
    refine ⟨?_, ?_, ?_, ?_, ?_, ?_, ?_⟩
    · rw [sm, ihm]
    · rw [sn, ihn]
      simp
      omega
    · rw [si, ihi]
      simp
    · rw [so, iho, ihn]
      rw [List.length_append, List.length_cons, List.length_nil]
      rw [List.range_succ, List.flatMap_append]
      simp [List.append_assoc]
    · intro i hi
      rw [List.length_append, List.length_cons, List.length_nil] at hi
      by_cases hilt : i < outs0.length
      · obtain ⟨hcl, hcr⟩ := ihc i hilt
        constructor
        · rw [sf (t.nextId + 2 * i) (by have hx := hofresh; omega)
              (by rw [ihn]; omega) (by rw [ihn]; omega)]
          exact hcl
        · rw [sf (t.nextId + 2 * i + 1) (by have hx := hofresh; omega)
              (by rw [ihn]; omega) (by rw [ihn]; omega)]
          exact hcr
      · have hieq : i = outs0.length := by omega
        subst hieq
        constructor
        · rw [← ihn]
          exact sc1
        · rw [← ihn]
          exact sc2
    · intro i hi
      rw [List.length_append, List.length_cons, List.length_nil] at hi
      by_cases hilt : i < outs0.length
      · have hget : (outs0 ++ [o]).get ⟨i, by simp; omega⟩ =
            outs0.get ⟨i, hilt⟩ := by
          rw [List.get_append _ hilt]
        rw [hget]
        have hpar := ihp i hilt
        have hpb : (outs0.get ⟨i, hilt⟩).block < t.nextId :=
          hfresh0 _ (outs0.get_mem _ _)
        have hpne : (outs0.get ⟨i, hilt⟩).block ≠ o.block := by
          intro hcontra
          exact honotin (hcontra ▸ List.mem_map_of_mem (·.block)
            (outs0.get_mem _ _))
        rw [sf _ hpne (by rw [ihn]; omega) (by rw [ihn]; omega)]
        exact hpar
      · have hieq : i = outs0.length := by omega
        subst hieq
        have hget : (outs0 ++ [o]).get ⟨outs0.length, by simp⟩ = o := by
          simp [List.get_append_right]
        rw [hget]
        rw [sp, ihf o.block hofresh honotin, ihn]
    · intro j hj hjnot
      rw [List.map_append] at hjnot
      simp only [List.mem_append] at hjnot
      push_neg at hjnot
      have hjno : j ≠ o.block := by
        intro hcontra
        exact hjnot.2 (by simp [hcontra])
      rw [sf j hjno (by rw [ihn]; omega) (by rw [ihn]; omega)]
      exact ihf j hj hjnot.1

theorem fused_fold_spec (br : BranchInfo) (removeAssign : Bool)
    (sblocks : Nat → ARBlock) (outs : List BasicBlockOutput)
    (B0 : Nat → ARBlock) (L0 : List BasicBlockOutput)
    (hagree : ∀ o ∈ outs, B0 o.block = sblocks o.block)
    (hnodup : (outs.map (·.block)).Nodup) :
    (outs.foldl (fun (acc : (Nat → ARBlock) × List BasicBlockOutput) o =>
        let bb := acc.1 o.block
        let cst := lastAssignConstValue bb
        let succ := if cst == 0 then br.falseSucc else br.trueSucc
        let blocks :=
          if removeAssign then fun j => if j = o.block then bb.popBack else acc.1 j
          else acc.1
        (blocks, acc.2 ++ [⟨o.block, some succ⟩])) (B0, L0)).2 =
      L0 ++ outs.map (fun o =>
        ⟨o.block, some (if lastAssignConstValue (sblocks o.block) == 0
          then br.falseSucc else br.trueSucc)⟩) ∧
    (∀ o ∈ outs,
      (outs.foldl (fun (acc : (Nat → ARBlock) × List BasicBlockOutput) o =>
          let bb := acc.1 o.block
          let cst := lastAssignConstValue bb
          let succ := if cst == 0 then br.falseSucc else br.trueSucc
          let blocks :=
            if removeAssign then fun j => if j = o.block then bb.popBack else acc.1 j
            else acc.1
          (blocks, acc.2 ++ [⟨o.block, some succ⟩])) (B0, L0)).1 o.block =
        if removeAssign then (sblocks o.block).popBack else sblocks o.block) ∧
    (∀ j, j ∉ outs.map (·.block) →
      (outs.foldl (fun (acc : (Nat → ARBlock) × List BasicBlockOutput) o =>
          let bb := acc.1 o.block
          let cst := lastAssignConstValue bb
          let succ := if cst == 0 then br.falseSucc else br.trueSucc
          let blocks :=
            if removeAssign then fun j => if j = o.block then bb.popBack else acc.1 j
            else acc.1
          (blocks, acc.2 ++ [⟨o.block, some succ⟩])) (B0, L0)).1 j = B0 j) := by
  induction outs generalizing B0 L0 with
  | nil => simp
  | cons o rest ih =>
    have hoagree : B0 o.block = sblocks o.block :=
      hagree o (List.mem_cons_self o rest)
    have hnodup1 : (rest.map (·.block)).Nodup := (List.nodup_cons.mp
      (by simpa using hnodup)).2
    have honotin : o.block ∉ rest.map (·.block) := (List.nodup_cons.mp
      (by simpa using hnodup)).1
    simp only [List.foldl_cons]
    set B1 : Nat → ARBlock :=
      if removeAssign then
        fun j => if j = o.block then (B0 o.block).popBack else B0 j
      else B0 with hB1
    have hagree1 : ∀ p ∈ rest, B1 p.block = sblocks p.block := by
      intro p hp
      have hpne : p.block ≠ o.block := by
        intro hcontra
        exact honotin (hcontra ▸ List.mem_map_of_mem (·.block) hp)
      rw [hB1]
      by_cases hra : removeAssign = true
      · simp [hra, hpne]
        exact hagree p (List.mem_cons_of_mem o hp)
      · simp at hra
        simp [hra]
        exact hagree p (List.mem_cons_of_mem o hp)
    obtain ⟨ih2, ihpar, ihframe⟩ := ih B1
      (L0 ++ [⟨o.block, some (if lastAssignConstValue (B0 o.block) == 0
        then br.falseSucc else br.trueSucc)⟩]) hagree1 hnodup1
    refine ⟨?_, ?_, ?_⟩
    · rw [ih2]
      simp [hoagree]
    · intro p hp
      rcases List.mem_cons.mp hp with hpo | hp
      · rw [hpo]
        rw [ihframe o.block honotin, hB1, hoagree]
        by_cases hra : removeAssign = true
        · simp [hra, hoagree]
        · simp at hra
          simp [hra, hoagree]
      · exact ihpar p hp
    · intro j hj
      simp only [List.map_cons, List.mem_cons] at hj
      push_neg at hj
      rw [ihframe j hj.2, hB1]
      by_cases hra : removeAssign = true
      · simp [hra, hj.1]
      · simp at hra
        simp [hra]

/-- Claim C6: for a conditional branch on a condition variable, when every
open output ends with an assignment of an integer constant to that
variable, no new blocks are created: each output keeps its block, its LLVM
successor is set to the false successor exactly when the constant is zero
(true successor otherwise), and the trailing assignment is removed exactly
when the condition is single-use by this branch; otherwise every output is
closed and split into a true child and a false child which carry the
`cond == true` / `cond == false` comparison (omitted exactly when the
condition is single-use) and whose LLVM successors are the true/false
successors. -/
theorem add_conditional_branching_spec (s : BBState) (br : BranchInfo)
    (cond : IVar)
    (hfresh : ∀ o ∈ s.outputs, o.block < s.nextId)
    (hnodup : (s.outputs.map (·.block)).Nodup) :
    (s.outputs.all (fun o => isCondConstAssign cond (s.blocks o.block)) = true →
      (s.add_conditional_branching br cond).nextId = s.nextId ∧
      (s.add_conditional_branching br cond).internals = s.internals ∧
      (s.add_conditional_branching br cond).outputs =
        s.outputs.map (fun o =>
          ⟨o.block, some (if lastAssignConstValue (s.blocks o.block) == 0
            then br.falseSucc else br.trueSucc)⟩) ∧
      (∀ o ∈ s.outputs, (s.add_conditional_branching br cond).blocks o.block =
        if br.condSingleUse then (s.blocks o.block).popBack
        else s.blocks o.block) ∧
      (∀ j, j ∉ s.outputs.map (·.block) →
        (s.add_conditional_branching br cond).blocks j = s.blocks j)) ∧
    (s.outputs.all (fun o => isCondConstAssign cond (s.blocks o.block)) = false →
      (s.add_conditional_branching br cond).outputs.length =
        2 * s.outputs.length ∧
      (s.add_conditional_branching br cond).internals =
        s.internals ++ s.outputs.map (·.block) ∧
      (s.add_conditional_branching br cond).outputs =
        (List.range s.outputs.length).flatMap (fun i =>
          [⟨s.nextId + 2 * i, some br.trueSucc⟩,
           ⟨s.nextId + 2 * i + 1, some br.falseSucc⟩]) ∧
      (∀ i, ∀ hi : i < s.outputs.length,
        (s.add_conditional_branching br cond).blocks (s.nextId + 2 * i) =
          ⟨if br.condSingleUse then []
           else [(create_bool_cmp cond true).toStmt], []⟩ ∧
        (s.add_conditional_branching br cond).blocks (s.nextId + 2 * i + 1) =
          ⟨if br.condSingleUse then []
           else [(create_bool_cmp cond false).toStmt], []⟩ ∧
        ((s.add_conditional_branching br cond).blocks
            (s.outputs.get ⟨i, hi⟩).block).succs =
          (s.blocks (s.outputs.get ⟨i, hi⟩).block).succs ++
            [s.nextId + 2 * i, s.nextId + 2 * i + 1])) := by
  constructor
  · intro hall
    have hrw : s.add_conditional_branching br cond =
        { s with
          blocks := (s.outputs.foldl
            (fun (acc : (Nat → ARBlock) × List BasicBlockOutput) o =>
              let bb := acc.1 o.block
              let cst := lastAssignConstValue bb
              let succ := if cst == 0 then br.falseSucc else br.trueSucc
              let blocks :=
                if br.condSingleUse then
                  fun j => if j = o.block then bb.popBack else acc.1 j
                else acc.1
              (blocks, acc.2 ++ [⟨o.block, some succ⟩])) (s.blocks, [])).1
          outputs := (s.outputs.foldl
            (fun (acc : (Nat → ARBlock) × List BasicBlockOutput) o =>
              let bb := acc.1 o.block
              let cst := lastAssignConstValue bb
              let succ := if cst == 0 then br.falseSucc else br.trueSucc
              let blocks :=
                if br.condSingleUse then
                  fun j => if j = o.block then bb.popBack else acc.1 j
                else acc.1
              (blocks, acc.2 ++ [⟨o.block, some succ⟩])) (s.blocks, [])).2 } := by
      unfold BBState.add_conditional_branching
      rw [hall]
      rfl
    obtain ⟨h2, hpar, hframe⟩ :=
      fused_fold_spec br br.condSingleUse s.blocks s.outputs s.blocks []
        (fun o _ => rfl) hnodup
    refine ⟨?_, ?_, ?_, ?_, ?_⟩
    · rw [hrw]
    · rw [hrw]
    · rw [hrw]
      dsimp only
      rw [h2]
      simp
    · intro o ho
      rw [hrw]
      dsimp only
      exact hpar o ho
    · intro j hj
      rw [hrw]
      dsimp only
      exact hframe j hj
  · intro hall
    have hrw : s.add_conditional_branching br cond =
        s.outputs.foldl (fun acc o =>
          ({ acc with internals := acc.internals ++ [o.block]
            }.add_conditional_output_bb br.condSingleUse o.block br.trueSucc
              cond true).add_conditional_output_bb br.condSingleUse o.block
            br.falseSucc cond false)
          { s with outputs := [] } := by
      unfold BBState.add_conditional_branching
      rw [hall]
      rfl
    obtain ⟨fm, fn, fi, fo, fc, fp, ff⟩ :=
      add_conditional_fold_spec br cond s.outputs { s with outputs := [] }
        hfresh hnodup
    refine ⟨?_, ?_, ?_, ?_⟩
    · rw [hrw, fo]
      dsimp only
      rw [List.length_append]
      have hlen : ((List.range s.outputs.length).flatMap (fun i =>
          [BasicBlockOutput.mk (s.nextId + 2 * i) (some br.trueSucc),
           BasicBlockOutput.mk (s.nextId + 2 * i + 1)
             (some br.falseSucc)])).length = 2 * s.outputs.length := by
        induction s.outputs.length with
        | zero => simp
        | succ m ih =>
          rw [List.range_succ, List.flatMap_append, List.length_append, ih]
          simp
          omega
      rw [hlen]
      simp
    · rw [hrw, fi]
    · rw [hrw, fo]
      dsimp only
      simp
    · intro i hi
      obtain ⟨hc1, hc2⟩ := fc i hi
      refine ⟨?_, ?_, ?_⟩
      · rw [hrw]
        exact hc1
      · rw [hrw]
        exact hc2
      · rw [hrw, fp i hi]

/-- Witness applying `add_conditional_branching_spec` to a concrete fused
state (two outputs ending with boolean assignments) and to a concrete
non-fused state. -/
theorem add_conditional_branching_spec_witness :
    ((sampleFanoutState ⟨5, .integer 1 .unsigned⟩).add_conditional_branching
        ⟨7, 9, true⟩ ⟨5, .integer 1 .unsigned⟩).nextId =
      (sampleFanoutState ⟨5, .integer 1 .unsigned⟩).nextId ∧
    (sampleState.add_conditional_branching ⟨7, 9, false⟩
        ⟨5, .integer 1 .unsigned⟩).outputs.length =
      2 * sampleState.outputs.length :=
  ⟨((add_conditional_branching_spec (sampleFanoutState ⟨5, .integer 1 .unsigned⟩)
      ⟨7, 9, true⟩ ⟨5, .integer 1 .unsigned⟩ (by decide) (by decide)).1
      (by decide)).1,
   ((add_conditional_branching_spec sampleState ⟨7, 9, false⟩
      ⟨5, .integer 1 .unsigned⟩ (by decide) (by decide)).2 (by decide)).1⟩

/-! ## Claim C10 -/

theorem bfs_mono {n : Nat} (succs : Fin n → List (Fin n))
    (visited : Finset (Fin n)) (wl : List (Fin n)) :
    visited ⊆ bfs succs visited wl := by
  induction visited, wl using bfs.induct succs with
  | case1 visited =>
    rw [bfs]
  | case2 visited b rest hmem ih =>
    rw [bfs, if_pos hmem]
    exact ih
  | case3 visited b rest hmem ih =>
    rw [bfs, if_neg hmem]
    exact (Finset.subset_insert b visited).trans ih

theorem bfs_sound {n : Nat} (succs : Fin n → List (Fin n))
    (R : Fin n → Prop) (hR : ∀ a c, R a → c ∈ succs a → R c)
    (visited : Finset (Fin n)) (wl : List (Fin n))
    (hvis : ∀ v ∈ visited, R v) (hwl : ∀ w ∈ wl, R w) :
    ∀ v ∈ bfs succs visited wl, R v := by
  induction visited, wl using bfs.induct succs with
  | case1 visited =>
    rw [bfs]
    exact hvis
  | case2 visited b rest hmem ih =>
    rw [bfs, if_pos hmem]
    exact ih hvis (fun w hw => hwl w (List.mem_cons_of_mem b hw))
  | case3 visited b rest hmem ih =>
    rw [bfs, if_neg hmem]
    have hRb : R b := hwl b (List.mem_cons_self b rest)
    refine ih ?_ ?_
    · intro v hv
      rcases Finset.mem_insert.mp hv with hv | hv
      · rw [hv]; exact hRb
      · exact hvis v hv
    · intro w hw
      rcases List.mem_append.mp hw with hw | hw
      · exact hwl w (List.mem_cons_of_mem b hw)
      · exact hR b w hRb hw

theorem bfs_wl_subset {n : Nat} (succs : Fin n → List (Fin n))
    (visited : Finset (Fin n)) (wl : List (Fin n)) :
    ∀ w ∈ wl, w ∈ bfs succs visited wl := by
  induction visited, wl using bfs.induct succs with
  | case1 visited =>
    intro w hw
    simp at hw
  | case2 visited b rest hmem ih =>
    intro w hw
    rw [bfs, if_pos hmem]
    rcases List.mem_cons.mp hw with hwb | hw
    · exact bfs_mono succs visited rest (hwb ▸ hmem)
    · exact ih w hw
  | case3 visited b rest hmem ih =>
    intro w hw
    rw [bfs, if_neg hmem]
    rcases List.mem_cons.mp hw with hwb | hw
    · exact bfs_mono succs (insert b visited) (rest ++ succs b)
        (hwb ▸ Finset.mem_insert_self b visited)
    · exact ih w (List.mem_append_left _ hw)

theorem bfs_closed {n : Nat} (succs : Fin n → List (Fin n))
    (visited : Finset (Fin n)) (wl : List (Fin n))
    (hinv : ∀ v ∈ visited, ∀ c ∈ succs v, c ∈ visited ∨ c ∈ wl) :
    ∀ v ∈ bfs succs visited wl, ∀ c ∈ succs v,
      c ∈ bfs succs visited wl := by
  induction visited, wl using bfs.induct succs with
  | case1 visited =>
    rw [bfs]
    intro v hv c hc
    rcases hinv v hv c hc with h | h
    · exact h
    · simp at h
  | case2 visited b rest hmem ih =>
    rw [bfs, if_pos hmem]
    refine ih ?_
    intro v hv c hc
    rcases hinv v hv c hc with h | h
    · exact Or.inl h
    · rcases List.mem_cons.mp h with hcb | h
      · exact Or.inl (hcb ▸ hmem)
      · exact Or.inr h
  | case3 visited b rest hmem ih =>
    rw [bfs, if_neg hmem]
    refine ih ?_
    intro v hv c hc
    rcases Finset.mem_insert.mp hv with hvb | hv
    · exact Or.inr (List.mem_append_right _ (hvb ▸ hc))
    · rcases hinv v hv c hc with h | h
      · exact Or.inl (Finset.mem_insert_of_mem h)
      · rcases List.mem_cons.mp h with hcb | h
        · exact Or.inl (hcb ▸ Finset.mem_insert_self b visited)
        · exact Or.inr (List.mem_append_left _ h)

/-- Claim C10: exactly the LIR blocks reachable from the entry block along
successor edges are translated by the BFS, and the deferred PHI-wiring pass
and the successor-linking pass process exactly the translated (hence
exactly the reachable) blocks, skipping every block absent from the
translation map. -/
theorem translate_basic_blocks_reachable {n : Nat} (g : LIRCfg n) (b : Fin n) :
    (b ∈ translate_basic_blocks g ↔ ReachableCfg g b) ∧
    (b ∈ translate_phi_nodes_processed g ↔ ReachableCfg g b) ∧
    (b ∈ link_basic_blocks_processed g ↔ ReachableCfg g b) := by
  have hmain : ∀ x : Fin n, x ∈ translate_basic_blocks g ↔ ReachableCfg g x := by
    intro x
    constructor
    · intro hx
      refine bfs_sound g.succs (ReachableCfg g) ?_ ∅ [g.entry] ?_ ?_ x hx
      · intro a c ha hc
        exact Relation.ReflTransGen.tail ha hc
      · intro v hv
        simp at hv
      · intro w hw
        rcases List.mem_cons.mp hw with hwe | hw
        · rw [hwe]
          exact Relation.ReflTransGen.refl
        · simp at hw
    · intro hx
      unfold ReachableCfg at hx
      induction hx with
      | refl =>
        exact bfs_wl_subset g.succs ∅ [g.entry] g.entry
          (List.mem_cons_self _ _)
      | tail ha hc ih =>
        exact bfs_closed g.succs ∅ [g.entry]
          (fun v hv => by simp at hv) _ ih _ hc
  refine ⟨hmain b, ?_, ?_⟩
  · unfold translate_phi_nodes_processed
    rw [List.mem_filter]
    simp [List.mem_finRange, hmain b]
  · unfold link_basic_blocks_processed
    rw [List.mem_filter]
    simp [List.mem_finRange, hmain b]

end IkosImport
